import Mathlib

/-!
Verification of the racon polisher core (`src/polisher.cpp`, `src/window.hpp`).

The C++ source is shallowly embedded: machine-word arithmetic is modelled with
`Nat`/`Int` (the code's values stay far below the word size on the inputs the
claims are about; where a wraparound is reachable it is modelled explicitly),
`double` parameters (`overlap_percentage`, thresholds) are modelled with exact
rationals (every concrete value appearing in a claim is a dyadic rational, for
which the C++ double arithmetic is exact), `std::vector<std::unique_ptr<T>>`
is modelled as `List (Option T)` (`none` = null pointer), and fatal
`exit(1)` paths are modelled with `Except String`.
-/

namespace Racon

/-! ## Window builder (Polisher::initialize, polisher.cpp:384-406) -/

/-- A window's backbone slice of its target: start position and length. -/
structure WinSpan where
  start : Nat
  len : Nat
deriving Repr, DecidableEq

/-- `uint32_t offset = window_length_ * overlap_percentage_;` (polisher.cpp:384).
The double product truncates to an integer; modelled as a rational floor. -/
def windowOffset (wl : Nat) (op : ℚ) : Nat := (⌊(wl : ℚ) * op⌋).toNat

/-- The window construction loop (polisher.cpp:389-403):
`for (uint32_t j = 0; j < data.size(); j += window_length_)`, each iteration
emitting a window with
`start = j` (minus `offset` when `j > 0`), `expansion = offset` (doubled when
`j > 0`) and `length = min(start + window_length_ + expansion, L) - start`. -/
def buildWindowsFrom (L wl offset : Nat) (j : Nat) : List WinSpan :=
  if h : j < L ∧ 0 < wl then
    let start := if 0 < j then j - offset else j
    let expansion := if 0 < j then offset + offset else offset
    ⟨start, min (start + wl + expansion) L - start⟩ ::
      buildWindowsFrom L wl offset (j + wl)
  else []
termination_by L - j
decreasing_by
  omega

/-- All windows of one target of length `L` (polisher.cpp:388-403). -/
def buildWindows (L wl : Nat) (op : ℚ) : List WinSpan :=
  buildWindowsFrom L wl (windowOffset wl op) 0

/-- One iteration of the window loop, spelled out. -/
def winStep (L wl offset j : Nat) : WinSpan :=
  ⟨if 0 < j then j - offset else j,
    min ((if 0 < j then j - offset else j) + wl +
        (if 0 < j then offset + offset else offset)) L -
      (if 0 < j then j - offset else j)⟩

theorem buildWindowsFrom_pos (L wl offset j : Nat) (h : j < L) (hwl : 0 < wl) :
    buildWindowsFrom L wl offset j =
      winStep L wl offset j :: buildWindowsFrom L wl offset (j + wl) := by
  rw [buildWindowsFrom.eq_def, dif_pos ⟨h, hwl⟩]
  rfl

theorem buildWindowsFrom_neg (L wl offset j : Nat) (h : ¬ (j < L ∧ 0 < wl)) :
    buildWindowsFrom L wl offset j = [] := by
  rw [buildWindowsFrom.eq_def, dif_neg h]

theorem buildWindowsFrom_length (L wl offset : Nat) (hwl : 0 < wl) :
    ∀ j, (buildWindowsFrom L wl offset j).length = (L - j + wl - 1) / wl := by
  suffices H : ∀ d j, L - j = d →
      (buildWindowsFrom L wl offset j).length = (L - j + wl - 1) / wl by
    intro j; exact H (L - j) j rfl
  intro d
  induction d using Nat.strong_induction_on with
  | _ d ih =>
    intro j hj
    by_cases h : j < L
    · rw [buildWindowsFrom_pos L wl offset j h hwl, List.length_cons,
        ih (L - (j + wl)) (by omega) (j + wl) rfl]
      rcases Nat.lt_or_ge (j + wl) L with h2 | h2
      · have he : L - j + wl - 1 = (L - (j + wl) + wl - 1) + wl := by omega
        rw [he, Nat.add_div_right _ hwl]
      · have h3 : L - (j + wl) = 0 := by omega
        have h5 : (0 + wl - 1) / wl = 0 := Nat.div_eq_of_lt (by omega)
        have h6 : L - j + wl - 1 = (L - j - 1) + wl := by omega
        rw [h3, h5, h6, Nat.add_div_right _ hwl,
          Nat.div_eq_of_lt (show L - j - 1 < wl by omega)]
    · rw [buildWindowsFrom_neg L wl offset j (by tauto), List.length_nil]
      have : (L - j + wl - 1) = L - j + (wl - 1) := by omega
      rw [this]
      have : L - j = 0 := by omega
      rw [this, Nat.zero_add]
      exact (Nat.div_eq_of_lt (by omega)).symm

theorem buildWindowsFrom_getElem? (L wl offset : Nat) (hwl : 0 < wl) :
    ∀ d j, L - j = d → ∀ k,
      (buildWindowsFrom L wl offset j)[k]? =
        if j + k * wl < L then some (winStep L wl offset (j + k * wl)) else none := by
  intro d
  induction d using Nat.strong_induction_on with
  | _ d ih =>
    intro j hj k
    by_cases h : j < L
    · rw [buildWindowsFrom_pos L wl offset j h hwl]
      match k with
      | 0 => simp [h]
      | k + 1 =>
        rw [List.getElem?_cons_succ, ih (L - (j + wl)) (by omega) (j + wl) rfl k]
        have he : j + wl + k * wl = j + (k + 1) * wl := by ring
        rw [he]
    · rw [buildWindowsFrom_neg L wl offset j (by tauto)]
      have : ¬ (j + k * wl < L) := by omega
      simp [this]

theorem windowOffset_le (wl : Nat) (op : ℚ) (hop2 : op ≤ 1/2) :
    windowOffset wl op ≤ wl := by
  unfold windowOffset
  have h1 : (wl : ℚ) * op ≤ (wl : ℚ) := by
    rcases le_or_lt op 0 with h | h
    · have : (wl : ℚ) * op ≤ 0 := mul_nonpos_of_nonneg_of_nonpos (by positivity) h
      linarith [show (0:ℚ) ≤ (wl:ℚ) by positivity]
    · nlinarith [show (0:ℚ) ≤ (wl:ℚ) by positivity]
  have h2 : (⌊(wl : ℚ) * op⌋ : ℤ) ≤ wl := by
    calc (⌊(wl : ℚ) * op⌋ : ℤ) ≤ ⌊(wl : ℚ)⌋ := Int.floor_le_floor h1
    _ = wl := by simp
  omega

/-- Claim C4 under correction: for a target of length `L`, the loop creates
`⌈L / window_length⌉` windows; window `k` starts at `k·window_length`, extended
left by `offset` when `k > 0`, and EVERY window (including `k = 0`) grows by
`offset` on the right (clipped at the sequence end), so that consecutive
windows overlap by `2·offset`. -/
theorem C4_window_builder (L wl : Nat) (op : ℚ) (hwl : 0 < wl)
    (hop2 : op ≤ 1/2) :
    (buildWindows L wl op).length = (L + wl - 1) / wl ∧
    (∀ k, (buildWindows L wl op)[k]? =
      if k * wl < L then
        some ⟨k * wl - (if 0 < k then windowOffset wl op else 0),
          min ((k + 1) * wl + windowOffset wl op) L -
            (k * wl - (if 0 < k then windowOffset wl op else 0))⟩
      else none) ∧
    (∀ k w1 w2, (k + 1) * wl + windowOffset wl op ≤ L →
      (buildWindows L wl op)[k]? = some w1 →
      (buildWindows L wl op)[k + 1]? = some w2 →
      w1.start + w1.len = w2.start + 2 * windowOffset wl op) := by
  have hoff : windowOffset wl op ≤ wl := windowOffset_le wl op hop2
  have hget : ∀ k, (buildWindows L wl op)[k]? =
      if k * wl < L then
        some ⟨k * wl - (if 0 < k then windowOffset wl op else 0),
          min ((k + 1) * wl + windowOffset wl op) L -
            (k * wl - (if 0 < k then windowOffset wl op else 0))⟩
      else none := by
    intro k
    rw [buildWindows, buildWindowsFrom_getElem? L wl (windowOffset wl op) hwl L 0 rfl k]
    simp only [Nat.zero_add]
    by_cases hk : k * wl < L
    · rw [if_pos hk, if_pos hk]
      unfold winStep
      by_cases hk0 : 0 < k
      · have hk1 : 1 ≤ k := hk0
        have hko : windowOffset wl op ≤ k * wl := by
          calc windowOffset wl op ≤ wl := hoff
          _ = 1 * wl := by ring
          _ ≤ k * wl := Nat.mul_le_mul_right wl hk1
        have hkw : 0 < k * wl := by
          have := Nat.mul_le_mul hk1 hwl
          omega
        simp only [hk0, hkw, if_true]
        congr 1
        have he : k * wl - windowOffset wl op + wl +
            (windowOffset wl op + windowOffset wl op) =
            (k + 1) * wl + windowOffset wl op := by
          have : (k + 1) * wl = k * wl + wl := by ring
          omega
        rw [he]
      · have hk0e : k = 0 := by omega
        subst hk0e
        simp
    · rw [if_neg hk, if_neg hk]
  refine ⟨?_, hget, ?_⟩
  · rw [buildWindows, buildWindowsFrom_length L wl (windowOffset wl op) hwl 0,
      Nat.sub_zero]
  · intro k w1 w2 hle h1 h2
    rw [hget k] at h1
    rw [hget (k + 1)] at h2
    have hk1 : (k + 1) * wl < L := by
      by_contra hc
      rw [if_neg (by
        have : (k + 1) * wl = k * wl + wl := by ring
        omega)] at h2
      exact Option.noConfusion h2
    have hk : k * wl < L := by
      have : k * wl < (k + 1) * wl := by
        have : (k + 1) * wl = k * wl + wl := by ring
        omega
      omega
    rw [if_pos hk] at h1
    rw [if_pos hk1] at h2
    injection h1 with h1
    injection h2 with h2
    subst h1
    subst h2
    simp only [Nat.lt_irrefl, Nat.zero_lt_succ, if_true]
    have hko : windowOffset wl op ≤ k * wl + wl := by omega
    have hm : min ((k + 1) * wl + windowOffset wl op) L =
        (k + 1) * wl + windowOffset wl op := Nat.min_eq_left hle
    by_cases hk0 : 0 < k
    · simp only [hk0, if_true]
      have hko2 : windowOffset wl op ≤ k * wl := by
        calc windowOffset wl op ≤ wl := hoff
        _ = 1 * wl := by ring
        _ ≤ k * wl := Nat.mul_le_mul_right wl hk0
      rw [hm]
      have h3 : (k + 1) * wl = k * wl + wl := by ring
      omega
    · have hk0e : k = 0 := by omega
      subst hk0e
      simp only [Nat.lt_irrefl, if_false]
      rw [hm]
      have h3 : (0 + 1) * wl = wl := by ring
      omega

/-- Counterexample to claim C4 as stated: with `L = 8`, `window_length = 4`,
`overlap_percentage = 1/4` (so `offset = 1`), window 0 has length 5, not the
bare `window_length = 4` the claim implies for `k = 0` (the right-hand growth
by `offset` happens for every window, not only for `k > 0`). -/
theorem C4_window_builder_cex :
    (buildWindows 8 4 (1/4 : ℚ))[0]? = some ⟨0, 5⟩ ∧
      (⟨0, 5⟩ : WinSpan) ≠ ⟨0, 4⟩ := by
  have hoff : windowOffset 4 (1/4 : ℚ) = 1 := by
    unfold windowOffset
    rw [show ((4:ℕ):ℚ) * (1/4 : ℚ) = 1 by norm_num]
    simp
  constructor
  · rw [buildWindows,
      buildWindowsFrom_getElem? 8 4 (windowOffset 4 (1/4 : ℚ)) (by decide) 8 0 rfl 0,
      hoff]
    decide
  · decide

/-- Witness instantiating `C4_window_builder` at a concrete input. -/
theorem C4_window_builder_witness :
    (0 < 4 ∧ (1/4 : ℚ) ≤ 1/2) ∧ (buildWindows 8 4 (1/4 : ℚ)).length = 2 :=
  ⟨⟨by decide, by norm_num⟩, by
    have h := (C4_window_builder 8 4 (1/4 : ℚ) (by decide) (by norm_num)).1
    omega⟩

/-! ## shrinkToFit (polisher.cpp:28-53; older variant src/unnamed/part_000:22-45)

`std::vector<std::unique_ptr<T>>` is modelled as `List (Option T)`; a null
pointer is `none`. The loop bodies of the two source versions are character
for character identical, so both embeddings share the loop `stfLoop`; they
differ only in the returned value. -/

/-- `src[i].swap(src[j])` (polisher.cpp:45): exchange the contents of two
slots. Out-of-range indices leave the list unchanged, matching that the loop
only swaps in-range slots. -/
def listSwap (arr : List (Option α)) (i j : Nat) : List (Option α) :=
  (arr.set i (arr.getD j none)).set j (arr.getD i none)

/-- `while (j < src.size() && src[j] == nullptr) ++j;` (polisher.cpp:38-40). -/
def skipNones (arr : List (Option α)) (j : Nat) : Nat :=
  if h : j < arr.length ∧ (arr.getD j none).isNone = true then
    skipNones arr (j + 1)
  else j
termination_by arr.length - j
decreasing_by
  omega

/-- The compaction loop of `shrinkToFit` (polisher.cpp:31-47):
`for (uint64_t j = begin; i < src.size(); ++i)` — skip non-null slots,
otherwise swap down the first non-null slot found at or after `max(j, i)`,
breaking when none remains. Returns the final vector contents together with
the final value of `i`. -/
def stfLoop (arr : List (Option α)) (i j : Nat) : List (Option α) × Nat :=
  if h : i < arr.length then
    if (arr.getD i none).isSome = true then stfLoop arr (i + 1) j
    else
      if arr.length ≤ skipNones arr (max j i) then (arr, i)
      else stfLoop (listSwap arr i (skipNones arr (max j i))) (i + 1)
        (skipNones arr (max j i))
  else (arr, i)
termination_by arr.length - i
decreasing_by
  · omega
  · simp only [listSwap, List.length_set]
    omega

/-- `uint64_t` subtraction, wrapping modulo `2^64`. -/
def u64sub (a b : Nat) : Nat := if b ≤ a then a - b else 2 ^ 64 - (b - a)

/-- `shrinkToFit` of the current source (polisher.cpp:28-53): compacts the
suffix from `begin`, resizes, and returns the number of deleted slots
(`uint64_t num_deletions = src.size() - i;`). -/
def shrinkToFit (src : List (Option α)) (begin : Nat) : List (Option α) × Nat :=
  let r := stfLoop src begin begin
  (if r.2 < r.1.length then r.1.take r.2 else r.1, u64sub r.1.length r.2)

/-- `shrinkToFit` of the older variant (src/unnamed/part_000:22-45): same
loop and resize, no return value. -/
def shrinkToFitOld (src : List (Option α)) (begin : Nat) : List (Option α) :=
  let r := stfLoop src begin begin
  if r.2 < r.1.length then r.1.take r.2 else r.1

theorem skipNones_spec (arr : List (Option α)) :
    ∀ d j, arr.length - j = d →
      j ≤ skipNones arr j ∧
      (∀ k, j ≤ k → k < skipNones arr j → arr[k]? = some none) ∧
      arr[skipNones arr j]? ≠ some none := by
  intro d
  induction d using Nat.strong_induction_on with
  | _ d ih =>
    intro j hj
    rw [skipNones.eq_def]
    by_cases hc : j < arr.length ∧ (arr.getD j none).isNone = true
    · rw [dif_pos hc]
      obtain ⟨hjlt, hnone⟩ := hc
      have hjn : arr[j]? = some none := by
        obtain ⟨x, hx⟩ : ∃ x, arr[j]? = some x := by
          rcases h2 : arr[j]? with _ | x
          · exact absurd (List.getElem?_eq_none_iff.mp h2) (by omega)
          · exact ⟨x, rfl⟩
        rw [hx]
        rw [List.getD_eq_getElem?_getD, hx] at hnone
        simp only [Option.getD_some] at hnone
        rw [Option.isNone_iff_eq_none] at hnone
        rw [hnone]
      have hrec := ih (arr.length - (j + 1)) (by omega) (j + 1) rfl
      refine ⟨by have := hrec.1; omega, ?_, hrec.2.2⟩
      intro k h1 h2
      rcases Nat.eq_or_lt_of_le h1 with he | hlt
      · rw [← he]
        exact hjn
      · exact hrec.2.1 k hlt h2
    · rw [dif_neg hc]
      refine ⟨Nat.le_refl j,
        fun k h1 h2 => absurd (Nat.lt_of_le_of_lt h1 h2) (Nat.lt_irrefl j), ?_⟩
      intro hcontra
      apply hc
      have hjlt : j < arr.length := by
        by_contra hge
        rw [List.getElem?_eq_none (by omega)] at hcontra
        exact Option.noConfusion hcontra
      refine ⟨hjlt, ?_⟩
      rw [List.getD_eq_getElem?_getD, hcontra]
      rfl

theorem listSwap_length (arr : List (Option α)) (i j : Nat) :
    (listSwap arr i j).length = arr.length := by
  simp [listSwap]

theorem listSwap_getElem?_left (arr : List (Option α)) {i j : Nat}
    (hi : i < arr.length) (hj : j < arr.length) (hne : i ≠ j) :
    (listSwap arr i j)[i]? = arr[j]? := by
  unfold listSwap
  rw [List.getElem?_set_ne (fun he => hne he.symm),
    List.getElem?_set_self (by simpa using hi), List.getD_eq_getElem?_getD]
  obtain ⟨y, hy⟩ : ∃ y, arr[j]? = some y :=
    ⟨arr[j], List.getElem?_eq_some_iff.mpr ⟨hj, rfl⟩⟩
  rw [hy]
  rfl

theorem listSwap_getElem?_right (arr : List (Option α)) {i j : Nat}
    (hi : i < arr.length) (hj : j < arr.length) :
    (listSwap arr i j)[j]? = arr[i]? := by
  unfold listSwap
  rw [List.getElem?_set_self (by simpa using hj), List.getD_eq_getElem?_getD]
  obtain ⟨y, hy⟩ : ∃ y, arr[i]? = some y :=
    ⟨arr[i], List.getElem?_eq_some_iff.mpr ⟨hi, rfl⟩⟩
  rw [hy]
  rfl

theorem listSwap_getElem?_other (arr : List (Option α)) {i j k : Nat}
    (h1 : k ≠ i) (h2 : k ≠ j) :
    (listSwap arr i j)[k]? = arr[k]? := by
  unfold listSwap
  rw [List.getElem?_set_ne (fun he => h2 he.symm),
    List.getElem?_set_ne (fun he => h1 he.symm)]

/-- Dropping an all-null prefix does not change the compacted contents. -/
theorem filterMap_id_drop_null_pre (l : List (Option α)) :
    ∀ n, (∀ m, m < n → l[m]? = some none) →
      l.filterMap id = (l.drop n).filterMap id := by
  intro n
  induction n generalizing l with
  | zero => intro _; rfl
  | succ n ih =>
    intro hm
    have h0 : l[0]? = some none := hm 0 (Nat.zero_lt_succ n)
    rcases l with _ | ⟨a, t⟩
    · simp at h0
    · have ha : a = none := by
        simpa using h0
      subst ha
      rw [List.filterMap_cons_none (f := id) rfl, List.drop_succ_cons]
      exact ih t (fun m hmn => by simpa using hm (m + 1) (by omega))

/-- A list whose entries are all null compacts to nothing. -/
theorem filterMap_id_eq_nil_of_null (l : List (Option α))
    (h : ∀ m, m < l.length → l[m]? = some none) :
    l.filterMap id = [] := by
  rw [List.filterMap_eq_nil_iff]
  intro a ha
  rcases List.getElem_of_mem ha with ⟨m, hm, he⟩
  have h2 := h m hm
  rw [List.getElem?_eq_some_iff.mpr ⟨hm, he⟩] at h2
  have h3 : a = none := Option.some.inj h2
  rw [h3]
  rfl

theorem countP_isNone_add_filterMap (l : List (Option α)) :
    l.countP (fun o => o.isNone) + (l.filterMap id).length = l.length := by
  induction l with
  | nil => simp
  | cons a t ih =>
    rcases a with _ | v
    · have e1 : List.countP (fun o => Option.isNone o) (none :: t) =
          List.countP (fun o => Option.isNone o) t + 1 := by simp
      have e2 : List.filterMap id (none :: t) = List.filterMap id t :=
        List.filterMap_cons_none (f := id) rfl
      rw [e1, e2, List.length_cons]
      omega
    · have e1 : List.countP (fun o => Option.isNone o) (some v :: t) =
          List.countP (fun o => Option.isNone o) t := by simp
      have e2 : List.filterMap id (some v :: t) = v :: List.filterMap id t :=
        List.filterMap_cons_some (f := id) rfl
      rw [e1, e2, List.length_cons, List.length_cons]
      omega

/-- Loop invariant characterization of `stfLoop`: under the invariant that
`[i, j)` holds only nulls, the loop preserves the length, ends with
`i = i₀ + #non-nulls of the suffix`, and its prefix up to the final `i` is
the untouched prefix followed by the stable compaction of the suffix. -/
theorem stfLoop_spec :
    ∀ (d : Nat) (arr : List (Option α)) (i j : Nat), arr.length - i = d →
      (∀ k, i ≤ k → k < j → arr[k]? = some none) →
      (stfLoop arr i j).1.length = arr.length ∧
      (stfLoop arr i j).2 = i + ((arr.drop i).filterMap id).length ∧
      (stfLoop arr i j).1.take (stfLoop arr i j).2 =
        arr.take i ++ ((arr.drop i).filterMap id).map some := by
  intro d
  induction d using Nat.strong_induction_on with
  | _ d ih =>
    intro arr i j hd hnull
    rw [stfLoop.eq_def]
    by_cases hi : i < arr.length
    case neg =>
      -- i past the end: the for-loop exits
      rw [dif_neg hi]
      have hile : arr.length ≤ i := by omega
      rw [List.drop_eq_nil_of_le hile]
      simp [List.take_of_length_le hile]
    case pos =>
      rw [dif_pos hi]
      have hx : arr[i]? = some (arr[i]) := List.getElem?_eq_some_iff.mpr ⟨hi, rfl⟩
      have hgd : arr.getD i none = arr[i] := by
        rw [List.getD_eq_getElem?_getD, hx]
        rfl
      rcases hv0 : arr[i] with _ | v
      · -- src[i] == nullptr: compaction step
        have hcond : ¬ ((arr.getD i none).isSome = true) := by
          rw [hgd, hv0]
          simp
        rw [if_neg hcond]
        have h : arr[i]? = some none := by rw [hx, hv0]
        have hsk := skipNones_spec arr (arr.length - max j i) (max j i) rfl
        set j2 := skipNones arr (max j i) with hj2def
        have hj2ge : max j i ≤ j2 := hsk.1
        have hnull2 : ∀ k, i ≤ k → k < j2 → arr[k]? = some none := by
          intro k hk1 hk2
          rcases Nat.lt_or_ge k j with hkj | hkj
          · exact hnull k hk1 hkj
          · exact hsk.2.1 k (by omega) hk2
        by_cases hb : arr.length ≤ j2
        · rw [if_pos hb]
          have hfm : (arr.drop i).filterMap id = [] := by
            apply filterMap_id_eq_nil_of_null
            intro m hm
            rw [List.getElem?_drop]
            simp only [List.length_drop] at hm
            exact hnull2 (i + m) (by omega) (by omega)
          rw [hfm]
          simp
        · rw [if_neg hb]
          have hj2lt : j2 < arr.length := by omega
          have hij2 : i < j2 := by
            rcases Nat.eq_or_lt_of_le (show i ≤ j2 by omega) with he | hlt
            · exfalso
              apply hsk.2.2
              rw [← he, h]
            · exact hlt
          obtain ⟨v, hv⟩ : ∃ v, arr[j2]? = some (some v) := by
            rcases hv2 : arr[j2]? with _ | y
            · exact absurd (List.getElem?_eq_none_iff.mp hv2) (by omega)
            · rcases y with _ | v
              · exact absurd hv2 hsk.2.2
              · exact ⟨v, rfl⟩
          set arr2 := listSwap arr i j2 with harr2
          have hlen2 : arr2.length = arr.length := listSwap_length arr i j2
          have harr2i : arr2[i]? = some (some v) := by
            rw [harr2, listSwap_getElem?_left arr hi hj2lt (by omega), hv]
          have harr2j2 : arr2[j2]? = some none := by
            rw [harr2, listSwap_getElem?_right arr hi hj2lt, h]
          have harr2other : ∀ k, k ≠ i → k ≠ j2 → arr2[k]? = arr[k]? := by
            intro k h1 h2
            exact listSwap_getElem?_other arr h1 h2
          have hnullrec : ∀ k, i + 1 ≤ k → k < j2 → arr2[k]? = some none := by
            intro k h1 h2
            rw [harr2other k (by omega) (by omega)]
            exact hnull2 k (by omega) h2
          have hIH := ih (arr2.length - (i + 1)) (by omega) arr2 (i + 1) j2
            rfl hnullrec
          -- relate the two suffix compactions
          have hdrop_eq : arr2.drop (j2 + 1) = arr.drop (j2 + 1) := by
            apply List.ext_getElem?
            intro m
            rw [List.getElem?_drop, List.getElem?_drop]
            exact harr2other (j2 + 1 + m) (by omega) (by omega)
          have hfm_arr : (arr.drop i).filterMap id =
              v :: (arr.drop (j2 + 1)).filterMap id := by
            have h1 : arr.drop i = none :: arr.drop (i + 1) := by
              have h4 := List.drop_eq_getElem_cons (n := i) (l := arr) hi
              rw [hv0] at h4
              exact h4
            rw [h1, List.filterMap_cons_none (f := id) rfl]
            rw [filterMap_id_drop_null_pre (arr.drop (i + 1)) (j2 - (i + 1))
              (by
                intro m hm
                rw [List.getElem?_drop]
                exact hnull2 (i + 1 + m) (by omega) (by omega))]
            rw [List.drop_drop]
            have he2 : i + 1 + (j2 - (i + 1)) = j2 := by omega
            rw [he2]
            have h2 : arr.drop j2 = some v :: arr.drop (j2 + 1) := by
              have h4 := List.drop_eq_getElem_cons (n := j2) (l := arr) hj2lt
              rw [(List.getElem?_eq_some_iff.mp hv).choose_spec] at h4
              exact h4
            rw [h2, List.filterMap_cons_some (f := id) rfl]
          have hfm_arr2 : (arr2.drop (i + 1)).filterMap id =
              (arr.drop (j2 + 1)).filterMap id := by
            rw [filterMap_id_drop_null_pre (arr2.drop (i + 1)) (j2 - (i + 1))
              (by
                intro m hm
                rw [List.getElem?_drop]
                rcases Nat.eq_or_lt_of_le (show i + 1 + m ≤ j2 by omega) with he | hlt
                · rw [he]
                  exact harr2j2
                · exact hnullrec (i + 1 + m) (by omega) hlt)]
            rw [List.drop_drop]
            have he2 : i + 1 + (j2 - (i + 1)) = j2 := by omega
            rw [he2]
            have h3 : arr2.drop j2 = none :: arr2.drop (j2 + 1) := by
              have hj2lt2 : j2 < arr2.length := by omega
              have h4 := List.drop_eq_getElem_cons (n := j2) (l := arr2) hj2lt2
              rw [(List.getElem?_eq_some_iff.mp harr2j2).choose_spec] at h4
              exact h4
            rw [h3, List.filterMap_cons_none (f := id) rfl, hdrop_eq]
          have htake2 : arr2.take (i + 1) = arr.take i ++ [some v] := by
            rw [List.take_succ]
            congr 1
            · apply List.ext_getElem?
              intro m
              rcases Nat.lt_or_ge m i with hm | hm
              · rw [List.getElem?_take_of_lt hm, List.getElem?_take_of_lt hm]
                exact harr2other m (by omega) (by omega)
              · rw [List.getElem?_take_eq_none hm, List.getElem?_take_eq_none hm]
            · rw [harr2i]
              rfl
          refine ⟨by rw [hIH.1, hlen2], ?_, ?_⟩
          · rw [hIH.2.1, hfm_arr, hfm_arr2]
            simp only [List.length_cons]
            omega
          · rw [hIH.2.2, hfm_arr, hfm_arr2, htake2]
            simp
      · -- src[i] != nullptr: continue
        have hcond : (arr.getD i none).isSome = true := by
          rw [hgd, hv0]
          rfl
        rw [if_pos hcond]
        have h : arr[i]? = some (some v) := by rw [hx, hv0]
        have hIH := ih (arr.length - (i + 1)) (by omega) arr (i + 1) j rfl
          (fun k h1 h2 => hnull k (by omega) h2)
        have h1 : arr.drop i = some v :: arr.drop (i + 1) := by
          have h4 := List.drop_eq_getElem_cons (n := i) (l := arr) hi
          rw [hv0] at h4
          exact h4
        have htake : arr.take (i + 1) = arr.take i ++ [some v] := by
          rw [List.take_succ]
          congr 1
          rw [h]
          rfl
        refine ⟨hIH.1, ?_, ?_⟩
        · rw [hIH.2.1, h1, List.filterMap_cons_some (f := id) rfl]
          simp only [List.length_cons]
          omega
        · rw [hIH.2.2, h1, List.filterMap_cons_some (f := id) rfl, htake]
          simp

/-- Claim C10: `shrinkToFit` leaves the elements before `begin` unchanged and
replaces the suffix from `begin` with exactly its non-null elements in their
original relative order; the two source versions produce identical resulting
vectors, and the newer one returns the number of removed null entries
(for `begin` within the vector; past the end the `uint64_t` count wraps). -/
theorem C10_shrinkToFit (α : Type) (l : List (Option α)) (b : Nat) :
    (shrinkToFit l b).1 = l.take b ++ ((l.drop b).filterMap id).map some ∧
    shrinkToFitOld l b = (shrinkToFit l b).1 ∧
    (b ≤ l.length →
      (shrinkToFit l b).2 = (l.drop b).countP (fun o => o.isNone)) := by
  have hs := stfLoop_spec (α := α) (l.length - b) l b b rfl
    (fun k h1 h2 => absurd (Nat.lt_of_le_of_lt h1 h2) (Nat.lt_irrefl b))
  have hres : (shrinkToFit l b).1 = (stfLoop l b b).1.take (stfLoop l b b).2 := by
    unfold shrinkToFit
    simp only []
    split
    · rfl
    · rename_i hge
      rw [List.take_of_length_le (by omega)]
  have hfinal : (shrinkToFit l b).1 =
      l.take b ++ ((l.drop b).filterMap id).map some := by
    rw [hres, hs.2.2]
  refine ⟨hfinal, ?_, ?_⟩
  · rw [hfinal]
    have hresOld : shrinkToFitOld l b = (stfLoop l b b).1.take (stfLoop l b b).2 := by
      unfold shrinkToFitOld
      simp only []
      split
      · rfl
      · rename_i hge
        rw [List.take_of_length_le (by omega)]
    rw [hresOld, hs.2.2]
  · intro hble
    have hcnt := countP_isNone_add_filterMap (l.drop b)
    have hdlen : (l.drop b).length = l.length - b := List.length_drop b l
    unfold shrinkToFit
    simp only []
    rw [hs.1, hs.2.1, u64sub]
    rw [if_pos (by omega)]
    omega

/-- Witness instantiating `C10_shrinkToFit` at a concrete input. -/
theorem C10_shrinkToFit_witness :
    1 ≤ 4 ∧ (shrinkToFit [some 7, none, some 9, none] 1).2 = 2 :=
  ⟨by decide, by
    have h := (C10_shrinkToFit Nat [some 7, none, some 9, none] 1).2.2 (by decide)
    simpa using h⟩

/-! ## Polish emission: default mode and overlap mode (Polisher::polish,
polisher.cpp:537-749)

Nucleotide data is modelled as `List Char`. The POA library (spoa) is an
external collaborator; the overlap-mode pairwise MSA it returns is therefore
an oracle parameter `msaOf` giving the two MSA rows for the two inserted
subsequences. -/

/-- Per-window data as consumed by `Polisher::polish` after
`generate_consensus`: target id (`Window::id`), rank, consensus string,
whether the window was polished (the future's boolean), and in overlap mode
the MSA summary matrix (`Window::summary`, row-major, rows = bases/gap,
columns = consensus length) and the base-to-row coder (`Window::coder`). -/
structure PWindow where
  id : Nat
  rank : Nat
  consensus : List Char
  polished : Bool
  summary : List Nat
  coder : Char → Nat

/-- An emitted polished sequence: name with appended tags, and body. -/
structure OutSeq where
  name : List Char
  body : List Char
deriving DecidableEq

/-- The tag suffix appended to an emitted sequence name
(polisher.cpp:575-578 and 720-723). `xc` is the formatted `XC:f:` value
(`std::to_string` of a double, an external formatting facility). -/
def tagsFor (isF : Bool) (len cov : Nat) (xc : List Char) : List Char :=
  (if isF then ['r'] else []) ++
    (" LN:i:".toList ++ (Nat.repr len).toList) ++
    (" RC:i:".toList ++ (Nat.repr cov).toList) ++
    (" XC:f:".toList ++ xc)

/-- `i == windows_.size() - 1 || windows_[i + 1]->rank() == 0`
(polisher.cpp:570, 623, 713) seen from the tail of the window list. -/
def targetEnd : List PWindow → Bool
  | [] => true
  | w2 :: _ => w2.rank == 0

/-- Default-mode polish loop (polisher.cpp:562-591): concatenate window
consensuses per target, emit at each target end with tags, honouring
`drop_unpolished_sequences`. -/
def defPolish (names : Nat → List Char) (covs : Nat → Nat) (isF dropU : Bool)
    (xcFmt : ℚ → List Char) : List Char → Nat → List PWindow → List OutSeq
  | _, _, [] => []
  | pd, np, w :: rest =>
    let np2 := np + (if w.polished then 1 else 0)
    let pd2 := pd ++ w.consensus
    if targetEnd rest then
      let ratio : ℚ := (np2 : ℚ) / ((w.rank : ℚ) + 1)
      (if (!dropU) = true ∨ ratio > 0 then
        [⟨names w.id ++ tagsFor isF pd2.length (covs w.id) (xcFmt ratio), pd2⟩]
      else []) ++ defPolish names covs isF dropU xcFmt [] 0 rest
    else defPolish names covs isF dropU xcFmt pd2 np2 rest

/-- `consensus.substr(0, consensus.size() - total_overlap * consensus.size())`
(polisher.cpp:608): the rank-0 prefix of a window consensus, with the double
count truncated. -/
def ovRank0Prefix (c : List Char) (t : ℚ) : List Char :=
  c.take (⌊(c.length : ℚ) - t * (c.length : ℚ)⌋).toNat

/-- `consensus.substr(consensus.size() - consensus.size() * total_overlap)`
(polisher.cpp:715): the final-window tail. -/
def ovFinalTail (c : List Char) (t : ℚ) : List Char :=
  c.drop (⌊(c.length : ℚ) - (c.length : ℚ) * t⌋).toNat

/-- `uint32_t len = consensus.size() * total_overlap;`
(polisher.cpp:614 and 621), double product truncated. -/
def ovLenFrac (c : List Char) (t : ℚ) : Nat :=
  (⌊(c.length : ℚ) * t⌋).toNat

/-- `uint32_t start_l = consensus_l.size() - len_l;` (polisher.cpp:615). -/
def ovStartL (c : List Char) (t : ℚ) : Nat := c.length - ovLenFrac c t

/-- `consensus_r.substr(len_r, consensus_r.size() - 2 * len_r)`
(polisher.cpp:708). The `size_t` count wraps when `2·len_r` exceeds the size,
in which case `substr` yields everything from `len_r`. -/
def ovMidBody (cr : List Char) (lenR : Nat) : List Char :=
  if 2 * lenR ≤ cr.length then (cr.drop lenR).take (cr.length - 2 * lenR)
  else cr.drop lenR

/-- First MSA scan (polisher.cpp:642-656): find the first matching column;
before it, collect the non-gap characters of row 0 and count the non-gap
characters of each row. Returns (match index, collected prefix, row-0
advance, row-1 advance). -/
def scanFirst : List (Char × Char) → Option Nat × List Char × Nat × Nat
  | [] => (none, [], 0, 0)
  | (a, b) :: rest =>
    if a = b then (some 0, [], 0, 0)
    else
      let r := scanFirst rest
      (r.1.map (· + 1),
        (if a ≠ '-' then [a] else []) ++ r.2.1,
        (if a ≠ '-' then 1 else 0) + r.2.2.1,
        (if b ≠ '-' then 1 else 0) + r.2.2.2)

/-- Second MSA scan (polisher.cpp:657-667), iterating from the last column
down to column 1, on the REVERSED tail of the column list: find the last
matching column; after it, collect the non-gap characters of row 1 (in
descending column order). Returns (reversed position of the match, collected
characters). -/
def scanLast : List (Char × Char) → Option Nat × List Char
  | [] => (none, [])
  | (a, b) :: rest =>
    if a = b then (some 0, [])
    else
      let r := scanLast rest
      (r.1.map (· + 1), (if b ≠ '-' then [b] else []) ++ r.2)

/-- Column-merge loop over the matched MSA region (polisher.cpp:672-704),
with the window-summary vote for mismatching base columns. State: collected
overlap, `l_pos`, `r_pos`. -/
def mergeCols (summaryL : List Nat) (gapL clLen : Nat) (coderL : Char → Nat)
    (summaryR : List Nat) (gapR crLen : Nat) (coderR : Char → Nat) :
    List (Char × Char) → List Char → Nat → Nat → List Char × Nat × Nat
  | [], o, lp, rp => (o, lp, rp)
  | (a, b) :: rest, o, lp, rp =>
    if a = b then
      mergeCols summaryL gapL clLen coderL summaryR gapR crLen coderR
        rest (o ++ [a]) (lp + 1) (rp + 1)
    else if a = '-' then
      mergeCols summaryL gapL clLen coderL summaryR gapR crLen coderR
        rest o lp (rp + 1)
    else if b = '-' then
      mergeCols summaryL gapL clLen coderL summaryR gapR crLen coderR
        rest o (lp + 1) rp
    else
      let gaps := (if summaryL.length ≠ 0 ∧ a ≠ '-' then
          summaryL.getD (gapL * clLen + lp) 0 else 0) +
        (if summaryR.length ≠ 0 ∧ b ≠ '-' then
          summaryR.getD (gapR * crLen + rp) 0 else 0)
      let lv := if summaryL.length ≠ 0 ∧ a ≠ '-' then
          summaryL.getD (coderL a * clLen + lp) 0 else 0
      let rv := if summaryR.length ≠ 0 ∧ b ≠ '-' then
          summaryR.getD (coderR b * crLen + rp) 0 else 0
      if max (max gaps lv) rv = gaps then
        mergeCols summaryL gapL clLen coderL summaryR gapR crLen coderR
          rest o lp rp
      else
        mergeCols summaryL gapL clLen coderL summaryR gapR crLen coderR
          rest (o ++ [if lv > rv then a else b]) lp rp

/-- The per-pair stitch contribution of overlap mode (polisher.cpp:610-708),
given the two MSA rows returned by the OV alignment. Produces the string
appended to `polished_data` for this window pair. -/
def stitchPiece (cl : List Char) (summaryL : List Nat) (coderL : Char → Nat)
    (cr : List Char) (summaryR : List Nat) (coderR : Char → Nat)
    (t : ℚ) (lenR : Nat) (m0 m1 : List Char) : List Char :=
  let gapLineL := summaryL.length / cl.length - 1
  let gapLineR := summaryR.length / cr.length - 1
  let lenL := ovLenFrac cl t
  let startL := cl.length - lenL
  let z := m0.zip m1
  let lenMsa := m0.length
  let f := scanFirst z
  let l := scanLast ((z.drop 1).reverse)
  match f.1, l.1 with
  | some fm, some mrev =>
    let last := lenMsa - 1 - mrev
    let cols := (z.drop fm).take (last + 1 - fm)
    let m := mergeCols summaryL gapLineL cl.length coderL
      summaryR gapLineR cr.length coderR cols f.2.1 (startL + f.2.2.1) f.2.2.2
    m.1 ++ l.2.reverse ++ ovMidBody cr lenR
  | _, _ =>
    (cl.drop startL).take lenL ++ cr.take lenR ++ ovMidBody cr lenR

/-- Overlap-mode polish loop (polisher.cpp:592-736). `t` is
`total_overlap = 2 * overlap_percentage_` (polisher.cpp:594); `msaOf` is the
external POA oracle returning the two MSA rows for the inserted left overlap
slice and right consensus prefix. Carries the previous window (windows_[i-1]),
`polished_data` and `num_polished_windows`. -/
def ovPolish (names : Nat → List Char) (covs : Nat → Nat) (isF dropU : Bool)
    (xcFmt : ℚ → List Char) (t : ℚ)
    (msaOf : List Char → List Char → List Char × List Char) :
    Option PWindow → List Char → Nat → List PWindow → List OutSeq
  | _, _, _, [] => []
  | prev, pd, np, w :: rest =>
    let np2 := np + (if w.polished then 1 else 0)
    let pd2 :=
      if w.rank = 0 then pd ++ ovRank0Prefix w.consensus t
      else
        match prev with
        | some pw =>
          let lenR := if targetEnd rest then w.consensus.length
            else ovLenFrac w.consensus t
          let lSub := (pw.consensus.drop (ovStartL pw.consensus t)).take
            (ovLenFrac pw.consensus t)
          let rSub := w.consensus.take lenR
          let m := msaOf lSub rSub
          pd ++ stitchPiece pw.consensus pw.summary pw.coder
            w.consensus w.summary w.coder t lenR m.1 m.2
        | none => pd
    if targetEnd rest then
      let pd3 := pd2 ++ ovFinalTail w.consensus t
      let ratio : ℚ := (np2 : ℚ) / ((w.rank : ℚ) + 1)
      (if (!dropU) = true ∨ ratio > 0 then
        [⟨names w.id ++ tagsFor isF pd3.length (covs w.id) (xcFmt ratio), pd3⟩]
      else []) ++ ovPolish names covs isF dropU xcFmt t msaOf (some w) [] 0 rest
    else ovPolish names covs isF dropU xcFmt t msaOf (some w) pd2 np2 rest

/-- Claim C9: in overlap mode, the rank-0 prefix and the final tail of a
window consensus are cut by the same truncated expression, so for a target
whose single window is both rank 0 and final, the prefix concatenated with
the tail reconstitutes the whole consensus, and the emitted body equals that
window's consensus exactly. -/
theorem C9_single_window_roundtrip (c : List Char) (t : ℚ) :
    ovRank0Prefix c t ++ ovFinalTail c t = c ∧
    (∀ (names : Nat → List Char) (covs : Nat → Nat) (isF : Bool)
      (xcFmt : ℚ → List Char)
      (msaOf : List Char → List Char → List Char × List Char)
      (i0 : Nat) (p : Bool) (s : List Nat) (cd : Char → Nat),
      (ovPolish names covs isF false xcFmt t msaOf none [] 0
        [⟨i0, 0, c, p, s, cd⟩]).map OutSeq.body = [c]) := by
  have hkey : ovRank0Prefix c t ++ ovFinalTail c t = c := by
    unfold ovRank0Prefix ovFinalTail
    rw [mul_comm (c.length : ℚ) t]
    exact List.take_append_drop _ c
  refine ⟨hkey, ?_⟩
  intro names covs isF xcFmt msaOf i0 p s cd
  simp [ovPolish, targetEnd, hkey]

/-- Claim C1 under correction: for the two adjacent window consensuses
`L = AAAAGGGG` (rank 0) and `R = GGGGTTTT` with `overlap_percentage = 1/4`,
`R` is the final window of the pair's target, so the code uses
`len_R = |R| = 8` (polisher.cpp:623), not 4; with the OV alignment matching
`GGGG` perfectly (MSA rows `GGGG----` and `GGGGTTTT`) the emitted body is
`AAAAGGGGTTTTTTTT` — the junction `GGGG` is not duplicated, but the final
tail `TTTT` is emitted twice. Only for a NON-final `R` (when `len_R = 4`
as the claim assumed, perfect match MSA `GGGG`/`GGGG`) do the pieces
concatenate to the claimed `AAAAGGGGTTTT`. -/
theorem ovLenFrac_eval (c : List Char) (t : ℚ) (k : Nat)
    (h : ⌊(c.length : ℚ) * t⌋ = (k : Int)) : ovLenFrac c t = k := by
  unfold ovLenFrac
  rw [h]
  simp

theorem ovRank0Prefix_eval (c : List Char) (t : ℚ) (k : Nat)
    (h : ⌊(c.length : ℚ) - t * (c.length : ℚ)⌋ = (k : Int)) :
    ovRank0Prefix c t = c.take k := by
  unfold ovRank0Prefix
  rw [h]
  simp

theorem ovFinalTail_eval (c : List Char) (t : ℚ) (k : Nat)
    (h : ⌊(c.length : ℚ) - (c.length : ℚ) * t⌋ = (k : Int)) :
    ovFinalTail c t = c.drop k := by
  unfold ovFinalTail
  rw [h]
  simp

/-- Claim C1 under correction: the concrete two-window run emits
`AAAAGGGGTTTTTTTT`, and with the claim's own `len_R = 4` premise the three
pieces concatenate to `AAAAGGGGTTTT`. -/
theorem C1_overlap_stitch :
    ((ovPolish (fun _ => []) (fun _ => 0) false false (fun _ => [])
        (2 * (1/4 : ℚ)) (fun _ _ => ("GGGG----".toList, "GGGGTTTT".toList))
        none [] 0
        [⟨0, 0, "AAAAGGGG".toList, true, [], fun _ => 0⟩,
         ⟨0, 1, "GGGGTTTT".toList, true, [], fun _ => 0⟩]).map OutSeq.body
      = ["AAAAGGGGTTTTTTTT".toList]) ∧
    (ovRank0Prefix "AAAAGGGG".toList (2 * (1/4 : ℚ)) ++
      stitchPiece "AAAAGGGG".toList [] (fun _ => 0) "GGGGTTTT".toList []
        (fun _ => 0) (2 * (1/4 : ℚ)) 4 "GGGG".toList "GGGG".toList ++
      ovFinalTail "GGGGTTTT".toList (2 * (1/4 : ℚ))
      = "AAAAGGGGTTTT".toList) := by
  constructor
  · norm_num [ovPolish, targetEnd]
    rw [ovRank0Prefix_eval _ _ 4 (by norm_num),
      ovFinalTail_eval _ _ 4 (by norm_num)]
    unfold stitchPiece
    rw [ovLenFrac_eval _ _ 4 (by norm_num)]
    decide
  · norm_num []
    rw [ovRank0Prefix_eval _ _ 4 (by norm_num),
      ovFinalTail_eval _ _ 4 (by norm_num)]
    unfold stitchPiece
    rw [ovLenFrac_eval _ _ 4 (by norm_num)]
    decide

/-- Counterexample to claim C1 as stated: on the concrete two-window target,
the emitted stitched pair is not `AAAAGGGGTTTT` (it is `AAAAGGGGTTTTTTTT`). -/
theorem C1_overlap_stitch_cex :
    ¬ ((ovPolish (fun _ => []) (fun _ => 0) false false (fun _ => [])
        (2 * (1/4 : ℚ)) (fun _ _ => ("GGGG----".toList, "GGGGTTTT".toList))
        none [] 0
        [⟨0, 0, "AAAAGGGG".toList, true, [], fun _ => 0⟩,
         ⟨0, 1, "GGGGTTTT".toList, true, [], fun _ => 0⟩]).map OutSeq.body
      = ["AAAAGGGGTTTT".toList]) := by
  norm_num [ovPolish, targetEnd]
  rw [ovRank0Prefix_eval _ _ 4 (by norm_num),
    ovFinalTail_eval _ _ 4 (by norm_num)]
  unfold stitchPiece
  rw [ovLenFrac_eval _ _ 4 (by norm_num)]
  decide

theorem defPolish_tag_shape (names : Nat → List Char) (covs : Nat → Nat)
    (isF dropU : Bool) (xcFmt : ℚ → List Char) :
    ∀ (ws : List PWindow) (pd : List Char) (np : Nat) r,
      r ∈ defPolish names covs isF dropU xcFmt pd np ws →
      ∃ q cov xc, r.name = q ++ tagsFor isF r.body.length cov xc := by
  intro ws
  induction ws with
  | nil =>
    intro pd np r hr
    simp [defPolish] at hr
  | cons w rest ih =>
    intro pd np r hr
    simp only [defPolish] at hr
    by_cases hte : targetEnd rest = true
    · rw [if_pos hte] at hr
      rcases List.mem_append.mp hr with hr1 | hr2
      · by_cases hemit : (!dropU) = true ∨
            ((np + (if w.polished then 1 else 0) : Nat) : ℚ) / ((w.rank : ℚ) + 1) > 0
        · rw [if_pos hemit] at hr1
          rcases List.mem_singleton.mp hr1 with rfl
          exact ⟨names w.id, covs w.id, _, rfl⟩
        · rw [if_neg hemit] at hr1
          simp at hr1
      · exact ih [] 0 r hr2
    · rw [if_neg hte] at hr
      exact ih _ _ r hr

theorem ovPolish_tag_shape (names : Nat → List Char) (covs : Nat → Nat)
    (isF dropU : Bool) (xcFmt : ℚ → List Char) (t : ℚ)
    (msaOf : List Char → List Char → List Char × List Char) :
    ∀ (ws : List PWindow) (prev : Option PWindow) (pd : List Char) (np : Nat) r,
      r ∈ ovPolish names covs isF dropU xcFmt t msaOf prev pd np ws →
      ∃ q cov xc, r.name = q ++ tagsFor isF r.body.length cov xc := by
  intro ws
  induction ws with
  | nil =>
    intro prev pd np r hr
    simp [ovPolish] at hr
  | cons w rest ih =>
    intro prev pd np r hr
    simp only [ovPolish] at hr
    by_cases hte : targetEnd rest = true
    · rw [if_pos hte] at hr
      rcases List.mem_append.mp hr with hr1 | hr2
      · by_cases hemit : (!dropU) = true ∨
            ((np + (if w.polished then 1 else 0) : Nat) : ℚ) / ((w.rank : ℚ) + 1) > 0
        · rw [if_pos hemit] at hr1
          rcases List.mem_singleton.mp hr1 with rfl
          exact ⟨names w.id, covs w.id, _, rfl⟩
        · rw [if_neg hemit] at hr1
          simp at hr1
      · exact ih (some w) [] 0 r hr2
    · rw [if_neg hte] at hr
      exact ih (some w) _ _ r hr

/-- Claim C7: every sequence emitted by polish, in default mode and in
overlap mode, carries an `LN:i:` tag (inside the appended tag suffix) whose
value is exactly the length of the emitted body. -/
theorem C7_ln_tag (names : Nat → List Char) (covs : Nat → Nat)
    (isF dropU : Bool) (xcFmt : ℚ → List Char) (t : ℚ)
    (msaOf : List Char → List Char → List Char × List Char)
    (pd : List Char) (np : Nat) (prev : Option PWindow) (ws : List PWindow) :
    (∀ r ∈ defPolish names covs isF dropU xcFmt pd np ws,
      ∃ q cov xc, r.name = q ++ tagsFor isF r.body.length cov xc) ∧
    (∀ r ∈ ovPolish names covs isF dropU xcFmt t msaOf prev pd np ws,
      ∃ q cov xc, r.name = q ++ tagsFor isF r.body.length cov xc) :=
  ⟨fun r hr => defPolish_tag_shape names covs isF dropU xcFmt ws pd np r hr,
   fun r hr => ovPolish_tag_shape names covs isF dropU xcFmt t msaOf ws prev pd np r hr⟩

/-- Witness instantiating `C7_ln_tag` at a concrete emitted sequence. -/
theorem C7_ln_tag_witness :
    ∃ q cov xc,
      (⟨"c".toList ++ tagsFor false 2 0 [], "AC".toList⟩ : OutSeq).name =
        q ++ tagsFor false 2 cov xc := by
  have h := (C7_ln_tag (fun _ => "c".toList) (fun _ => 0) false false
      (fun _ => []) 0 (fun _ _ => ([], [])) [] 0 none
      [⟨0, 0, "AC".toList, true, [], fun _ => 0⟩]).1
      ⟨"c".toList ++ tagsFor false 2 0 [], "AC".toList⟩ (by decide)
  exact h

/-! ## Sequence loading and duplicate elision (Polisher::initialize,
polisher.cpp:202-270) -/

/-- A parsed sequence record: name, nucleotide data, quality string. -/
structure Seq where
  name : List Char
  data : List Char
  quality : List Char
deriving DecidableEq, Repr

/-- `name_to_id.find(name + "t")` (polisher.cpp:215, 237): the target index
registered for a name. The `unordered_map` assignment at line 215 runs for
ascending `i`, so the LAST target with a given name wins. -/
def targetIdx (targets : List Seq) (nm : List Char) : Option Nat :=
  (((targets.enum).filter (fun p => p.2.name = nm)).map (fun p => p.1)).getLast?

/-- The query-loading loop body (polisher.cpp:229-264) over one chunk:
`i` is the index the next query would occupy in `sequences_`, `n` the number
of elided queries so far in the chunk. A query whose name matches a target
is elided when its data size and quality size equal the target's (the query
slot is reset and `id_to_id` redirected to the target id), and FATAL
otherwise; a fresh query gets internal id `i - n`. Returns the surviving
queries (after `shrinkToFit`) and the `id_to_id` assignment per query. -/
def loadQueries (targets : List Seq) : Nat → Nat → List Seq →
    Except (List Char) (List Seq × List Nat)
  | _, _, [] => Except.ok ([], [])
  | i, n, s :: rest =>
    (targetIdx targets s.name).elim
      ((loadQueries targets (i + 1) n rest).map
        (fun r => (s :: r.1, (i - n) :: r.2)))
      (fun tid =>
        if s.data.length ≠ (targets.getD tid ⟨[], [], []⟩).data.length ∨
            s.quality.length ≠ (targets.getD tid ⟨[], [], []⟩).quality.length
        then Except.error
          ("duplicate sequence with unequal data: ".toList ++ s.name)
        else (loadQueries targets (i + 1) (n + 1) rest).map
          (fun r => (r.1, tid :: r.2)))

theorem loadQueries_cons (targets : List Seq) (i n : Nat) (s : Seq)
    (rest : List Seq) :
    loadQueries targets i n (s :: rest) =
      (targetIdx targets s.name).elim
        ((loadQueries targets (i + 1) n rest).map
          (fun r => (s :: r.1, (i - n) :: r.2)))
        (fun tid =>
          if s.data.length ≠ (targets.getD tid ⟨[], [], []⟩).data.length ∨
              s.quality.length ≠ (targets.getD tid ⟨[], [], []⟩).quality.length
          then Except.error
            ("duplicate sequence with unequal data: ".toList ++ s.name)
          else (loadQueries targets (i + 1) (n + 1) rest).map
            (fun r => (r.1, tid :: r.2))) := rfl

theorem exceptMap_eq_ok {ε α β : Type} {e : Except ε α} {f : α → β} {b : β} :
    e.map f = Except.ok b ↔ ∃ a, e = Except.ok a ∧ f a = b := by
  cases e <;> simp [Except.map]

theorem exceptMap_eq_error {ε α β : Type} {e : Except ε α} {f : α → β}
    {m : ε} : e.map f = Except.error m ↔ e = Except.error m := by
  cases e <;> simp [Except.map]

/-- Counterexample to claim C2 as stated: a duplicate-name query with the
SAME data length and quality length but DIFFERENT content is silently elided
and redirected (the code at polisher.cpp:239-240 compares only sizes), not
fatal. -/
theorem C2_dup_elision_cex :
    loadQueries [⟨"s".toList, "AAAA".toList, []⟩] 1 0
        [⟨"s".toList, "CCCC".toList, []⟩] =
      Except.ok ([], [0]) ∧
    "CCCC".toList ≠ "AAAA".toList := by
  constructor
  · rfl
  · decide

/-- Claim C2 under correction: a duplicate-name query is elided and its index
redirected to the matching target id iff its data LENGTH and quality LENGTH
equal the target's (content is not compared); a duplicate-name query with
unequal data length or quality length is fatal. -/
theorem C2_dup_elision (targets : List Seq) :
    ∀ (queries : List Seq) (i n : Nat),
      (∀ (seqs : List Seq) (ids : List Nat),
        loadQueries targets i n queries = Except.ok (seqs, ids) →
        (∀ x ∈ seqs, targetIdx targets x.name = none) ∧
        (∀ (k : Nat) (s : Seq) (tid : Nat), queries[k]? = some s →
          targetIdx targets s.name = some tid →
          s.data.length = (targets.getD tid ⟨[], [], []⟩).data.length ∧
          s.quality.length = (targets.getD tid ⟨[], [], []⟩).quality.length ∧
          ids[k]? = some tid)) ∧
      (∀ (k : Nat) (s : Seq) (tid : Nat), queries[k]? = some s →
        targetIdx targets s.name = some tid →
        (s.data.length ≠ (targets.getD tid ⟨[], [], []⟩).data.length ∨
          s.quality.length ≠ (targets.getD tid ⟨[], [], []⟩).quality.length) →
        ∃ e, loadQueries targets i n queries = Except.error e) := by
  intro queries
  induction queries with
  | nil =>
    intro i n
    constructor
    · intro seqs ids hok
      have h0 : loadQueries targets i n [] = Except.ok ([], []) := rfl
      rw [h0] at hok
      injection hok with hok
      have h1 : seqs = [] := (congrArg Prod.fst hok).symm
      constructor
      · intro x hx
        rw [h1] at hx
        simp at hx
      · intro k s tid hk
        simp at hk
    · intro k s tid hk
      simp at hk
  | cons s0 rest ih =>
    intro i n
    constructor
    · intro seqs ids hok
      rw [loadQueries_cons] at hok
      rcases ht : targetIdx targets s0.name with _ | tid0
      · rw [ht, Option.elim_none] at hok
        rcases exceptMap_eq_ok.mp hok with ⟨r, hr, hval⟩
        have hseqs : seqs = s0 :: r.1 := by
          have := congrArg Prod.fst hval
          exact this.symm
        have hids : ids = (i - n) :: r.2 := by
          have := congrArg Prod.snd hval
          exact this.symm
        have hih := (ih (i + 1) n).1 r.1 r.2 (by rw [hr])
        constructor
        · intro x hx
          rw [hseqs] at hx
          rcases List.mem_cons.mp hx with rfl | hx2
          · exact ht
          · exact hih.1 x hx2
        · intro k s tid hk hts
          match k with
          | 0 =>
            simp only [List.getElem?_cons_zero] at hk
            injection hk with hk
            subst hk
            rw [ht] at hts
            exact Option.noConfusion hts
          | k + 1 =>
            simp only [List.getElem?_cons_succ] at hk
            have := hih.2 k s tid hk hts
            rw [hids, List.getElem?_cons_succ]
            exact this
      · rw [ht, Option.elim_some] at hok
        by_cases hlen : s0.data.length ≠ (targets.getD tid0 ⟨[], [], []⟩).data.length ∨
            s0.quality.length ≠ (targets.getD tid0 ⟨[], [], []⟩).quality.length
        · rw [if_pos hlen] at hok
          exact Except.noConfusion hok
        · rw [if_neg hlen] at hok
          rcases exceptMap_eq_ok.mp hok with ⟨r, hr, hval⟩
          have hseqs : seqs = r.1 := (congrArg Prod.fst hval).symm
          have hids : ids = tid0 :: r.2 := (congrArg Prod.snd hval).symm
          have hih := (ih (i + 1) (n + 1)).1 r.1 r.2 (by rw [hr])
          constructor
          · intro x hx
            rw [hseqs] at hx
            exact hih.1 x hx
          · intro k s tid hk hts
            match k with
            | 0 =>
              simp only [List.getElem?_cons_zero] at hk
              injection hk with hk
              subst hk
              rw [ht] at hts
              injection hts with hts
              subst hts
              push_neg at hlen
              exact ⟨hlen.1, hlen.2, by rw [hids, List.getElem?_cons_zero]⟩
            | k + 1 =>
              simp only [List.getElem?_cons_succ] at hk
              have := hih.2 k s tid hk hts
              rw [hids, List.getElem?_cons_succ]
              exact this
    · intro k s tid hk hts hlen
      rw [loadQueries_cons]
      rcases ht : targetIdx targets s0.name with _ | tid0
      · rw [Option.elim_none]
        match k with
        | 0 =>
          simp only [List.getElem?_cons_zero] at hk
          injection hk with hk
          subst hk
          rw [ht] at hts
          exact Option.noConfusion hts
        | k + 1 =>
          simp only [List.getElem?_cons_succ] at hk
          obtain ⟨e, he⟩ := (ih (i + 1) n).2 k s tid hk hts hlen
          exact ⟨e, by rw [exceptMap_eq_error]; exact he⟩
      · rw [Option.elim_some]
        by_cases hl0 : s0.data.length ≠ (targets.getD tid0 ⟨[], [], []⟩).data.length ∨
            s0.quality.length ≠ (targets.getD tid0 ⟨[], [], []⟩).quality.length
        · exact ⟨_, by rw [if_pos hl0]⟩
        · rw [if_neg hl0]
          match k with
          | 0 =>
            simp only [List.getElem?_cons_zero] at hk
            injection hk with hk
            subst hk
            rw [ht] at hts
            injection hts with hts
            subst hts
            exact absurd hlen hl0
          | k + 1 =>
            simp only [List.getElem?_cons_succ] at hk
            obtain ⟨e, he⟩ := (ih (i + 1) (n + 1)).2 k s tid hk hts hlen
            exact ⟨e, by rw [exceptMap_eq_error]; exact he⟩

/-- Witness instantiating `C2_dup_elision` at a concrete input: a query
whose name matches the target with equal data and quality lengths is
redirected to target id 0. -/
theorem C2_dup_elision_witness :
    loadQueries [⟨"s".toList, "AAAA".toList, []⟩] 1 0
        [⟨"s".toList, "AAAA".toList, []⟩] = Except.ok ([], [0]) ∧
    ([0] : List Nat)[0]? = some 0 :=
  ⟨by rfl,
    ((C2_dup_elision [⟨"s".toList, "AAAA".toList, []⟩]
      [⟨"s".toList, "AAAA".toList, []⟩] 1 0).1 [] [0] (by rfl)).2
      0 ⟨"s".toList, "AAAA".toList, []⟩ 0 (by decide) (by decide) |>.2.2⟩

/-! ## Layer assignment (Polisher::initialize, polisher.cpp:410-508) -/

/-- A breaking point `(target_position, query_position)` relative to the
overlap (`Overlap::breaking_points`, pairs of `uint32_t`). -/
structure BP where
  t : Nat
  q : Nat
deriving DecidableEq, Repr

/-- `j + 2 < breaking_points.size()` lookahead: the target position of the
next fragment pair's start, when it exists (polisher.cpp:447, 471). -/
def nextStartT : List (BP × BP) → Option Nat
  | [] => none
  | (c1, _) :: _ => some c1.t

/-- The low-quality branch's update of `prev_window_id`
(polisher.cpp:437-449). Window ids are modelled in `ℤ`: the `uint64_t`
initializer `-1` (polisher.cpp:417) and a decrement below zero both
correspond exactly to the integers modulo `2^64` while ids stay small. -/
def lowQualAdjust (firstW : ℤ) (wl offset : Nat) (prev : ℤ) (b1 b2 : BP)
    (nextT : Option Nat) : ℤ :=
  let bpw1 := b1.t / wl
  let bpw2 := b2.t / wl
  let n := firstW + (bpw1 : ℤ)
  if bpw2 - bpw1 > 1 then n + 1
  else if n = prev then n + 1
  else if b1.t < bpw1 * wl + offset ∧ nextT = some b1.t then n - 1
  else n

/-- The assignment branch's window id computation (polisher.cpp:462-473). -/
def assignAdjust (firstW : ℤ) (wl offset : Nat) (prev : ℤ) (b1 b2 : BP)
    (nextT : Option Nat) : ℤ :=
  let bpw1 := b1.t / wl
  let bpw2 := b2.t / wl
  let n := firstW + (bpw1 : ℤ)
  if bpw2 - bpw1 > 1 then n + 1
  else if n = prev then n + 1
  else if b1.t < bpw1 * wl + offset ∧ nextT = some b1.t then n - 1
  else n

/-- Mean Phred quality over a query span `[a, b)` (polisher.cpp:430-434):
byte values minus 33, summed and divided as doubles (modelled in ℚ). -/
def avgQual (qs : List Nat) (a b : Nat) : ℚ :=
  (((qs.drop a).take (b - a)).foldl
    (fun sum c => sum + ((c - 33 : Nat) : ℚ)) 0) / ((b - a : Nat) : ℚ)

/-- The breaking-point walk of one overlap (polisher.cpp:419-505), with the
breaking points as consecutive pairs. Produces the `add_layer` assignments
as (window id, fragment start, fragment end); fragments shorter than
`0.02 · window_length` on the query side are skipped without touching
`prev_window_id`; low mean quality skips the fragment but advances
`prev_window_id` by the parallel rule. -/
def assignLoop (wl offset : Nat) (qthr : ℚ) (quality revQuality : List Nat)
    (strand : Bool) (firstW : ℤ) : ℤ → List (BP × BP) → List (ℤ × BP × BP)
  | _, [] => []
  | prev, (b1, b2) :: rest =>
    if ((b2.q - b1.q : Nat) : ℚ) < (1/50 : ℚ) * (wl : ℚ) then
      assignLoop wl offset qthr quality revQuality strand firstW prev rest
    else if (quality ≠ [] ∨ revQuality ≠ []) ∧
        avgQual (if strand then revQuality else quality) b1.q b2.q < qthr then
      assignLoop wl offset qthr quality revQuality strand firstW
        (lowQualAdjust firstW wl offset prev b1 b2 (nextStartT rest)) rest
    else
      (assignAdjust firstW wl offset prev b1 b2 (nextStartT rest), b1, b2) ::
        assignLoop wl offset qthr quality revQuality strand firstW
          (assignAdjust firstW wl offset prev b1 b2 (nextStartT rest)) rest

theorem assignLoop_cons (wl offset : Nat) (qthr : ℚ)
    (quality revQuality : List Nat) (strand : Bool) (firstW prev : ℤ)
    (b1 b2 : BP) (rest : List (BP × BP)) :
    assignLoop wl offset qthr quality revQuality strand firstW prev
        ((b1, b2) :: rest) =
      if ((b2.q - b1.q : Nat) : ℚ) < (1/50 : ℚ) * (wl : ℚ) then
        assignLoop wl offset qthr quality revQuality strand firstW prev rest
      else if (quality ≠ [] ∨ revQuality ≠ []) ∧
          avgQual (if strand then revQuality else quality) b1.q b2.q < qthr then
        assignLoop wl offset qthr quality revQuality strand firstW
          (lowQualAdjust firstW wl offset prev b1 b2 (nextStartT rest)) rest
      else
        (assignAdjust firstW wl offset prev b1 b2 (nextStartT rest), b1, b2) ::
          assignLoop wl offset qthr quality revQuality strand firstW
            (assignAdjust firstW wl offset prev b1 b2 (nextStartT rest)) rest := rfl

/-- Claim C5: a fragment whose query has quality data and whose mean Phred
quality is below the threshold contributes no layer to any window, but still
advances `prev_window_id`, computed with the SAME adjustment rule as
assigned fragments (the two branch bodies, polisher.cpp:437-449 and 462-473,
are identical). -/
theorem C5_low_quality_skip (wl offset : Nat) (qthr : ℚ)
    (quality revQuality : List Nat) (strand : Bool) (firstW prev : ℤ)
    (b1 b2 : BP) (rest : List (BP × BP))
    (hshort : ¬ (((b2.q - b1.q : Nat) : ℚ) < (1/50 : ℚ) * (wl : ℚ)))
    (hq : quality ≠ [] ∨ revQuality ≠ [])
    (hlow : avgQual (if strand then revQuality else quality) b1.q b2.q < qthr) :
    assignLoop wl offset qthr quality revQuality strand firstW prev
        ((b1, b2) :: rest) =
      assignLoop wl offset qthr quality revQuality strand firstW
        (lowQualAdjust firstW wl offset prev b1 b2 (nextStartT rest)) rest ∧
    (∀ (fw : ℤ) (w o : Nat) (p : ℤ) (c1 c2 : BP) (nt : Option Nat),
      lowQualAdjust fw w o p c1 c2 nt = assignAdjust fw w o p c1 c2 nt) := by
  constructor
  · rw [assignLoop_cons, if_neg hshort, if_pos ⟨hq, hlow⟩]
  · intro fw w o p c1 c2 nt
    rfl

/-- Witness instantiating `C5_low_quality_skip` at a concrete input. -/
theorem C5_low_quality_skip_witness :
    avgQual [33] 0 1 < (10 : ℚ) ∧
    assignLoop 50 0 10 [33] [] false 0 (-1) [(⟨0, 0⟩, ⟨10, 1⟩)] =
      assignLoop 50 0 10 [33] [] false 0
        (lowQualAdjust 0 50 0 (-1) ⟨0, 0⟩ ⟨10, 1⟩ (nextStartT [])) [] :=
  ⟨by norm_num [avgQual],
    (C5_low_quality_skip 50 0 10 [33] [] false 0 (-1) ⟨0, 0⟩ ⟨10, 1⟩ []
      (by norm_num) (by simp) (by norm_num [avgQual])).1⟩

/-- Claim C6: a fragment passing the length and quality filters is assigned
window id `first_window_of_target + bpw1`, adjusted by exactly one of, in
this order: incremented if `bpw2 - bpw1 > 1`; else incremented if it equals
`prev_window_id`; else decremented if `t_pos[j] < bpw1·wl + offset` and a
next pair exists starting at the same target position; and
`prev_window_id` becomes the resulting id for the rest of the walk. -/
theorem C6_window_assignment (wl offset : Nat) (qthr : ℚ)
    (quality revQuality : List Nat) (strand : Bool) (firstW prev : ℤ)
    (b1 b2 : BP) (rest : List (BP × BP)) (wid : ℤ)
    (hshort : ¬ (((b2.q - b1.q : Nat) : ℚ) < (1/50 : ℚ) * (wl : ℚ)))
    (hq : ¬ ((quality ≠ [] ∨ revQuality ≠ []) ∧
      avgQual (if strand then revQuality else quality) b1.q b2.q < qthr))
    (hwid : wid =
      if b2.t / wl - b1.t / wl > 1 then firstW + (b1.t / wl : Nat) + 1
      else if firstW + ((b1.t / wl : Nat) : ℤ) = prev then
        firstW + (b1.t / wl : Nat) + 1
      else if b1.t < (b1.t / wl) * wl + offset ∧
          nextStartT rest = some b1.t then firstW + (b1.t / wl : Nat) - 1
      else firstW + (b1.t / wl : Nat)) :
    assignLoop wl offset qthr quality revQuality strand firstW prev
        ((b1, b2) :: rest) =
      (wid, b1, b2) ::
        assignLoop wl offset qthr quality revQuality strand firstW wid rest := by
  rw [assignLoop_cons, if_neg hshort, if_neg hq]
  have hw : wid = assignAdjust firstW wl offset prev b1 b2 (nextStartT rest) := by
    rw [hwid]
    rfl
  rw [hw]

/-- Witness instantiating `C6_window_assignment` at a concrete input. -/
theorem C6_window_assignment_witness :
    ((0 : ℤ) =
      if (10 : Nat) / 50 - (0 : Nat) / 50 > 1 then (0 : ℤ) + ((0 : Nat) / 50 : Nat) + 1
      else if (0 : ℤ) + (((0 : Nat) / 50 : Nat) : ℤ) = -1 then
        (0 : ℤ) + ((0 : Nat) / 50 : Nat) + 1
      else if (0 : Nat) < ((0 : Nat) / 50) * 50 + 0 ∧
          nextStartT [] = some 0 then (0 : ℤ) + ((0 : Nat) / 50 : Nat) - 1
      else (0 : ℤ) + ((0 : Nat) / 50 : Nat)) ∧
    assignLoop 50 0 10 [] [] false 0 (-1) [(⟨0, 0⟩, ⟨10, 1⟩)] =
      (0, ⟨0, 0⟩, ⟨10, 1⟩) :: assignLoop 50 0 10 [] [] false 0 0 [] :=
  ⟨by decide,
    C6_window_assignment 50 0 10 [] [] false 0 (-1) ⟨0, 0⟩ ⟨10, 1⟩ [] 0
      (by norm_num) (by simp) (by decide)⟩

/-! ## Overlap normalization and mode-C deduplication
(Polisher::initialize, polisher.cpp:282-364) -/

/-- An overlap after `transmute`: internal ids, self-reported error rate,
length, strand; `valid` records the external `Overlap::is_valid()` verdict. -/
structure Ov where
  q_id : Nat
  t_id : Nat
  error : ℚ
  length : Nat
  strand : Bool
  valid : Bool
deriving DecidableEq

/-- The inner dedup scan of `remove_invalid_overlaps` (polisher.cpp:295-305)
for a candidate `o` over the rest of the run: null out strictly shorter
later overlaps; stop, killing the candidate, at the first one at least as
long. Returns whether the candidate survives, and the updated rest. -/
def innerScan (o : Ov) : List (Option Ov) → Bool × List (Option Ov)
  | [] => (true, [])
  | none :: rest =>
    let r := innerScan o rest
    (r.1, none :: r.2)
  | some oj :: rest =>
    if o.length > oj.length then
      let r := innerScan o rest
      (r.1, none :: r.2)
    else (false, some oj :: rest)

theorem innerScan_length (o : Ov) :
    ∀ l : List (Option Ov), (innerScan o l).2.length = l.length := by
  intro l
  induction l with
  | nil => rfl
  | cons x rest ih =>
    rcases x with _ | oj
    · simp only [innerScan, List.length_cons, ih]
    · rw [innerScan]
      split
      · simp only [List.length_cons, ih]
      · rfl

/-- `remove_invalid_overlaps(begin, end)` (polisher.cpp:284-308) over one
run: per entry the error and self-overlap filters, then, in mode C, the
pairwise dedup scan over the rest of the run. -/
def removeInvalid (isC : Bool) (thr : ℚ) : List (Option Ov) → List (Option Ov)
  | [] => []
  | none :: rest => none :: removeInvalid isC thr rest
  | some o :: rest =>
    if o.error > thr ∨ o.q_id = o.t_id then none :: removeInvalid isC thr rest
    else if isC then
      (if (innerScan o rest).1 then some o else none) ::
        removeInvalid isC thr (innerScan o rest).2
    else some o :: removeInvalid isC thr rest
termination_by l => l.length
decreasing_by
  · simp only [List.length_cons]
    omega
  · simp only [List.length_cons]
    omega
  · simp only [innerScan_length, List.length_cons]
    omega
  · simp only [List.length_cons]
    omega

theorem removeInvalid_nil (isC : Bool) (thr : ℚ) :
    removeInvalid isC thr [] = [] := by
  simp [removeInvalid]

theorem removeInvalid_cons_none (isC : Bool) (thr : ℚ)
    (rest : List (Option Ov)) :
    removeInvalid isC thr (none :: rest) = none :: removeInvalid isC thr rest := by
  simp [removeInvalid]

theorem removeInvalid_cons_some (isC : Bool) (thr : ℚ) (o : Ov)
    (rest : List (Option Ov)) :
    removeInvalid isC thr (some o :: rest) =
      if o.error > thr ∨ o.q_id = o.t_id then none :: removeInvalid isC thr rest
      else if isC then
        (if (innerScan o rest).1 then some o else none) ::
          removeInvalid isC thr (innerScan o rest).2
      else some o :: removeInvalid isC thr rest := by
  rw [removeInvalid]

/-- `takeRun q l` splits off the longest prefix of `l` whose non-null
entries all have query id `q` (the contiguous run detection of
polisher.cpp:324-330: the run continues over nulls and ends at the first
valid overlap with a different `q_id`). -/
def takeRun (q : Nat) : List (Option Ov) → List (Option Ov) × List (Option Ov)
  | [] => ([], [])
  | none :: rest =>
    let r := takeRun q rest
    (none :: r.1, r.2)
  | some o :: rest =>
    if o.q_id = q then
      let r := takeRun q rest
      (some o :: r.1, r.2)
    else ([], some o :: rest)

theorem takeRun_append (q : Nat) :
    ∀ l : List (Option Ov), (takeRun q l).1 ++ (takeRun q l).2 = l := by
  intro l
  induction l with
  | nil => rfl
  | cons x rest ih =>
    rcases x with _ | o
    · simp only [takeRun, List.cons_append, ih]
    · rw [takeRun]
      split
      · simp only [List.cons_append, ih]
      · rfl

theorem takeRun_snd_length (q : Nat) :
    ∀ l : List (Option Ov), (takeRun q l).2.length ≤ l.length := by
  intro l
  induction l with
  | nil => exact Nat.le_refl 0
  | cons x rest ih =>
    rcases x with _ | o
    · simp only [takeRun, List.length_cons]
      omega
    · rw [takeRun]
      split
      · simp only [List.length_cons]
        omega
      · exact Nat.le_refl _

/-- The run grouping of the overlap chunk driver (polisher.cpp:312-335):
runs are flushed to `remove_invalid_overlaps` at each `q_id` change of the
first surviving overlap anchor; nulls attach to the run in progress. -/
def groupRuns : List (Option Ov) → List (List (Option Ov))
  | [] => []
  | none :: rest =>
    match groupRuns rest with
    | [] => [[none]]
    | r :: rs => (none :: r) :: rs
  | some o :: rest =>
    (some o :: (takeRun o.q_id rest).1) ::
      groupRuns (takeRun o.q_id rest).2
termination_by l => l.length
decreasing_by
  · simp only [List.length_cons]
    omega
  · exact Nat.lt_succ_of_le (takeRun_snd_length _ _)

theorem groupRuns_nil : groupRuns [] = [] := by
  simp [groupRuns]

theorem groupRuns_cons_none (rest : List (Option Ov)) :
    groupRuns (none :: rest) =
      match groupRuns rest with
      | [] => [[none]]
      | r :: rs => (none :: r) :: rs := by
  rw [groupRuns]

theorem groupRuns_cons_some (o : Ov) (rest : List (Option Ov)) :
    groupRuns (some o :: rest) =
      (some o :: (takeRun o.q_id rest).1) ::
        groupRuns (takeRun o.q_id rest).2 := by
  rw [groupRuns]

/-- One chunk of the overlap normalization driver (polisher.cpp:312-335):
split into runs, apply `remove_invalid_overlaps` to each. -/
def normalizeChunk (isC : Bool) (thr : ℚ) (l : List (Option Ov)) :
    List (Option Ov) :=
  ((groupRuns l).map (removeInvalid isC thr)).flatten

/-- The full overlap normalization (polisher.cpp:310-364), single chunk:
`is_valid` filtering, run-wise `remove_invalid_overlaps`, and the final
`shrinkToFit` compaction. -/
def normalizeOverlaps (isC : Bool) (thr : ℚ) (ovs : List Ov) : List Ov :=
  (normalizeChunk isC thr
    (ovs.map (fun o => if o.valid then some o else none))).filterMap id

/-- The `q_id` sequence of the surviving (non-null) entries. -/
def qSeq (l : List (Option Ov)) : List Nat := (l.filterMap id).map Ov.q_id

/-- The input's valid overlaps arrive grouped by `q_id`: between two equal
values every value is the same. -/
def Grouped (qs : List Nat) : Prop :=
  ∀ (i j k a : Nat), i ≤ j → j ≤ k →
    qs[i]? = some a → qs[k]? = some a → qs[j]? = some a

theorem innerScan_true_none (o : Ov) :
    ∀ l : List (Option Ov), (innerScan o l).1 = true →
      ∀ x ∈ (innerScan o l).2, x = none := by
  intro l
  induction l with
  | nil =>
    intro _ x hx
    simp [innerScan] at hx
  | cons y rest ih =>
    rcases y with _ | oj
    · simp only [innerScan]
      intro h1 x hx
      rcases List.mem_cons.mp hx with rfl | hx2
      · rfl
      · exact ih h1 x hx2
    · simp only [innerScan]
      split
      · intro h1 x hx
        rcases List.mem_cons.mp hx with rfl | hx2
        · rfl
        · exact ih h1 x hx2
      · intro h1
        simp at h1

theorem innerScan_mem_some (o : Ov) :
    ∀ (l : List (Option Ov)) (x : Ov),
      some x ∈ (innerScan o l).2 → some x ∈ l := by
  intro l
  induction l with
  | nil =>
    intro x hx
    simp [innerScan] at hx
  | cons y rest ih =>
    rcases y with _ | oj
    · simp only [innerScan]
      intro x hx
      rcases List.mem_cons.mp hx with h | hx2
      · exact Option.noConfusion h
      · exact List.mem_cons_of_mem _ (ih x hx2)
    · simp only [innerScan]
      split
      · intro x hx
        rcases List.mem_cons.mp hx with h | hx2
        · exact Option.noConfusion h
        · exact List.mem_cons_of_mem _ (ih x hx2)
      · intro x hx
        exact hx

theorem removeInvalid_mem_some (isC : Bool) (thr : ℚ) :
    ∀ (d : Nat) (l : List (Option Ov)), l.length = d → ∀ x : Ov,
      some x ∈ removeInvalid isC thr l → some x ∈ l := by
  intro d
  induction d using Nat.strong_induction_on with
  | _ d ih =>
    intro l hd x hx
    rcases l with _ | ⟨y, rest⟩
    · rw [removeInvalid_nil] at hx
      simp at hx
    · rcases y with _ | o
      · rw [removeInvalid_cons_none] at hx
        rcases List.mem_cons.mp hx with h | hx2
        · exact Option.noConfusion h
        · exact List.mem_cons_of_mem _
            (ih rest.length (by simp at hd; omega) rest rfl x hx2)
      · rw [removeInvalid_cons_some] at hx
        split at hx
        · rcases List.mem_cons.mp hx with h | hx2
          · exact Option.noConfusion h
          · exact List.mem_cons_of_mem _
              (ih rest.length (by simp at hd; omega) rest rfl x hx2)
        · split at hx
          · rcases List.mem_cons.mp hx with h | hx2
            · split at h
              · injection h with h
                subst h
                exact List.mem_cons_self _ _
              · exact Option.noConfusion h
            · have h2 := ih (innerScan o rest).2.length
                (by rw [innerScan_length]; simp at hd; omega)
                (innerScan o rest).2 rfl x hx2
              exact List.mem_cons_of_mem _ (innerScan_mem_some o rest x h2)
          · rcases List.mem_cons.mp hx with h | hx2
            · injection h with h
              subst h
              exact List.mem_cons_self _ _
            · exact List.mem_cons_of_mem _
                (ih rest.length (by simp at hd; omega) rest rfl x hx2)

theorem removeInvalid_all_none (isC : Bool) (thr : ℚ) :
    ∀ l : List (Option Ov), (∀ x ∈ l, x = none) →
      removeInvalid isC thr l = l := by
  intro l
  induction l with
  | nil => exact fun _ => removeInvalid_nil isC thr
  | cons y rest ih =>
    intro h
    have hy : y = none := h y (List.mem_cons_self _ _)
    subst hy
    rw [removeInvalid_cons_none, ih (fun x hx => h x (List.mem_cons_of_mem _ hx))]

theorem removeInvalid_count_le_one (thr : ℚ) :
    ∀ (d : Nat) (l : List (Option Ov)), l.length = d →
      (removeInvalid true thr l).countP (fun x => x.isSome) ≤ 1 := by
  intro d
  induction d using Nat.strong_induction_on with
  | _ d ih =>
    intro l hd
    rcases l with _ | ⟨y, rest⟩
    · rw [removeInvalid_nil]
      simp
    · rcases y with _ | o
      · rw [removeInvalid_cons_none,
          List.countP_cons_of_neg _ _ (by simp)]
        exact ih rest.length (by simp at hd; omega) rest rfl
      · rw [removeInvalid_cons_some]
        split
        · rw [List.countP_cons_of_neg _ _ (by simp)]
          exact ih rest.length (by simp at hd; omega) rest rfl
        · rw [if_pos rfl]
          rcases hb : (innerScan o rest).1 with _ | _
          · rw [List.countP_cons_of_neg _ _ (by simp)]
            exact ih (innerScan o rest).2.length
              (by rw [innerScan_length]; simp at hd; omega)
              (innerScan o rest).2 rfl
          · rw [List.countP_cons_of_pos _ _ (by simp)]
            have hall := innerScan_true_none o rest hb
            have heq := removeInvalid_all_none true thr (innerScan o rest).2 hall
            rw [heq]
            have hzero : ((innerScan o rest).2).countP (fun x => x.isSome) = 0 := by
              rw [List.countP_eq_zero]
              intro x hx
              rw [hall x hx]
              simp
            omega

theorem takeRun_fst_q (q : Nat) :
    ∀ (l : List (Option Ov)) (x : Ov),
      some x ∈ (takeRun q l).1 → x.q_id = q := by
  intro l
  induction l with
  | nil =>
    intro x hx
    simp [takeRun] at hx
  | cons y rest ih =>
    rcases y with _ | o
    · simp only [takeRun]
      intro x hx
      rcases List.mem_cons.mp hx with h | hx2
      · exact Option.noConfusion h
      · exact ih x hx2
    · simp only [takeRun]
      split
      · intro x hx
        rcases List.mem_cons.mp hx with h | hx2
        · injection h with h
          subst h
          assumption
        · exact ih x hx2
      · intro x hx
        simp at hx

theorem takeRun_snd_shape (q : Nat) :
    ∀ l : List (Option Ov), (takeRun q l).2 = [] ∨
      ∃ o2 r2, (takeRun q l).2 = some o2 :: r2 ∧ o2.q_id ≠ q := by
  intro l
  induction l with
  | nil => exact Or.inl rfl
  | cons y rest ih =>
    rcases y with _ | o
    · simpa only [takeRun] using ih
    · simp only [takeRun]
      split
      · exact ih
      · exact Or.inr ⟨o, rest, rfl, by assumption⟩

theorem groupRuns_join :
    ∀ (d : Nat) (l : List (Option Ov)), l.length = d →
      (groupRuns l).flatten = l := by
  intro d
  induction d using Nat.strong_induction_on with
  | _ d ih =>
    intro l hd
    rcases l with _ | ⟨y, rest⟩
    · rw [groupRuns_nil]
      rfl
    · rcases y with _ | o
      · rw [groupRuns_cons_none]
        have hrest := ih rest.length (by simp at hd; omega) rest rfl
        rcases hgr : groupRuns rest with _ | ⟨r, rs⟩
        · rw [hgr] at hrest
          simp only [List.flatten_nil] at hrest
          simp [← hrest]
        · rw [hgr] at hrest
          simp only [List.flatten_cons] at hrest ⊢
          rw [← hrest]
          simp
      · rw [groupRuns_cons_some]
        simp only [List.flatten_cons]
        have h2 := ih (takeRun o.q_id rest).2.length
          (by
            have := takeRun_snd_length o.q_id rest
            simp at hd
            omega)
          (takeRun o.q_id rest).2 rfl
        rw [h2]
        simp only [List.cons_append]
        rw [takeRun_append]

theorem normalizeChunk_mem_some (isC : Bool) (thr : ℚ)
    (l : List (Option Ov)) (x : Ov) :
    some x ∈ normalizeChunk isC thr l → some x ∈ l := by
  intro h
  unfold normalizeChunk at h
  rcases List.mem_flatten.mp h with ⟨part, hpart, hx⟩
  rcases List.mem_map.mp hpart with ⟨run, hrun, hrm⟩
  rw [← hrm] at hx
  have h2 := removeInvalid_mem_some isC thr run.length run rfl x hx
  have h3 : some x ∈ (groupRuns l).flatten := List.mem_flatten.mpr ⟨run, hrun, h2⟩
  rw [groupRuns_join l.length l rfl] at h3
  exact h3

theorem grouped_drop (qs : List Nat) (m : Nat) (h : Grouped qs) :
    Grouped (qs.drop m) := by
  intro i j k a hij hjk hi hk
  rw [List.getElem?_drop] at hi hk ⊢
  exact h (m + i) (m + j) (m + k) a (by omega) (by omega) hi hk

theorem qSeq_nil : qSeq [] = [] := rfl

theorem qSeq_cons_none (l : List (Option Ov)) : qSeq (none :: l) = qSeq l := by
  simp [qSeq]

theorem qSeq_cons_some (o : Ov) (l : List (Option Ov)) :
    qSeq (some o :: l) = o.q_id :: qSeq l := by
  simp [qSeq]

theorem qSeq_append (l1 l2 : List (Option Ov)) :
    qSeq (l1 ++ l2) = qSeq l1 ++ qSeq l2 := by
  simp [qSeq, List.filterMap_append]

theorem qSeq_mem (l : List (Option Ov)) (x : Ov) (h : some x ∈ l) :
    x.q_id ∈ qSeq l := by
  unfold qSeq
  exact List.mem_map.mpr ⟨x, List.mem_filterMap.mpr ⟨some x, h, rfl⟩, rfl⟩

theorem filterMap_id_length_countP (l : List (Option Ov)) :
    (l.filterMap id).length = l.countP (fun x => x.isSome) := by
  induction l with
  | nil => rfl
  | cons y rest ih =>
    rcases y with _ | v
    · rw [List.filterMap_cons_none (f := id) rfl,
        List.countP_cons_of_neg _ _ (by simp), ih]
    · rw [List.filterMap_cons_some (f := id) rfl,
        List.countP_cons_of_pos _ _ (by simp), List.length_cons, ih]

/-- In mode C every flushed run keeps at most one overlap per `q_id`;
for input grouped by `q_id` the whole normalized chunk keeps each
`q_id` at most once. -/
theorem normalizeChunk_count (thr : ℚ) :
    ∀ (d : Nat) (l : List (Option Ov)), l.length = d → Grouped (qSeq l) →
      ∀ a : Nat, ((normalizeChunk true thr l).filterMap id).countP
        (fun o => o.q_id == a) ≤ 1 := by
  intro d
  induction d using Nat.strong_induction_on with
  | _ d ih =>
    intro l hd hg a
    rcases l with _ | ⟨y, rest⟩
    · simp [normalizeChunk, groupRuns_nil]
    · rcases y with _ | o
      · have hrec := ih rest.length (by simp at hd; omega) rest rfl
          (by rwa [qSeq_cons_none] at hg) a
        have hjoin : (normalizeChunk true thr (none :: rest)).filterMap id =
            (normalizeChunk true thr rest).filterMap id := by
          unfold normalizeChunk
          rw [groupRuns_cons_none]
          rcases hgr : groupRuns rest with _ | ⟨r, rs⟩
          · simp [removeInvalid_cons_none, removeInvalid_nil]
          · simp only [List.map_cons, List.flatten_cons,
              removeInvalid_cons_none]
            simp [List.filterMap_append]
        rw [hjoin]
        exact hrec
      · have happ := takeRun_append o.q_id rest
        unfold normalizeChunk
        rw [groupRuns_cons_some]
        simp only [List.map_cons, List.flatten_cons]
        rw [List.filterMap_append, List.countP_append]
        have hqseq : qSeq (some o :: rest) =
            (o.q_id :: qSeq (takeRun o.q_id rest).1) ++
              qSeq (takeRun o.q_id rest).2 := by
          rw [qSeq_cons_some]
          conv_lhs => rw [← happ]
          rw [qSeq_append]
          simp
        by_cases ha : o.q_id = a
        · -- the run may keep one overlap with this q_id; the rest keeps none
          have h1 : ((removeInvalid true thr
              (some o :: (takeRun o.q_id rest).1)).filterMap id).countP
                (fun x => x.q_id == a) ≤ 1 := by
            calc ((removeInvalid true thr
                (some o :: (takeRun o.q_id rest).1)).filterMap id).countP
                  (fun x => x.q_id == a)
                ≤ ((removeInvalid true thr
                  (some o :: (takeRun o.q_id rest).1)).filterMap id).length :=
                List.countP_le_length _
              _ = (removeInvalid true thr
                  (some o :: (takeRun o.q_id rest).1)).countP
                    (fun x => x.isSome) := filterMap_id_length_countP _
              _ ≤ 1 := removeInvalid_count_le_one thr _ _ rfl
          have h2 : ((List.map (removeInvalid true thr)
              (groupRuns (takeRun o.q_id rest).2)).flatten.filterMap id).countP
                (fun x => x.q_id == a) = 0 := by
            rw [List.countP_eq_zero]
            intro x hx
            have hmem : some x ∈ normalizeChunk true thr (takeRun o.q_id rest).2 := by
              rcases List.mem_filterMap.mp hx with ⟨ox, hox, hid⟩
              rw [id_eq] at hid
              subst hid
              exact hox
            have hx2 := normalizeChunk_mem_some true thr _ x hmem
            -- x sits in the tail but carries the run's q_id: contradiction
            -- with groupedness
            intro hxa
            have hxa2 : x.q_id = a := by simpa using hxa
            rcases takeRun_snd_shape o.q_id rest with hnil | ⟨o2, r2, he2, hne⟩
            · rw [hnil] at hx2
              simp at hx2
            · have hqx : x.q_id ∈ qSeq (takeRun o.q_id rest).2 :=
                qSeq_mem _ x hx2
              rcases List.getElem?_of_mem hqx with ⟨k, hk⟩
              have hxo : x.q_id = o.q_id := by rw [hxa2, ha]
              rw [hxo] at hk
              have hq0 : (qSeq (some o :: rest))[0]? = some o.q_id := by
                rw [qSeq_cons_some]
                simp
              have hqm : (qSeq (some o :: rest))[(qSeq (takeRun o.q_id rest).1).length + 1]? =
                  some o2.q_id := by
                rw [hqseq, List.cons_append, List.getElem?_cons_succ,
                  List.getElem?_append_right (Nat.le_refl _), Nat.sub_self,
                  he2, qSeq_cons_some]
                simp
              have hqk : (qSeq (some o :: rest))[(qSeq (takeRun o.q_id rest).1).length + 1 + k]? =
                  some o.q_id := by
                rw [show (qSeq (takeRun o.q_id rest).1).length + 1 + k =
                  ((qSeq (takeRun o.q_id rest).1).length + k) + 1 from by omega]
                rw [hqseq, List.cons_append, List.getElem?_cons_succ,
                  List.getElem?_append_right (by omega)]
                rw [show (qSeq (takeRun o.q_id rest).1).length + k -
                  (qSeq (takeRun o.q_id rest).1).length = k from by omega]
                exact hk
              have hmid := hg 0 ((qSeq (takeRun o.q_id rest).1).length + 1)
                ((qSeq (takeRun o.q_id rest).1).length + 1 + k) o.q_id
                (by omega) (by omega) hq0 hqk
              rw [hqm] at hmid
              injection hmid with hmid
              exact hne hmid
          omega
        · -- the run's survivors carry q_id = o.q_id ≠ a; recurse on the tail
          have h1 : ((removeInvalid true thr
              (some o :: (takeRun o.q_id rest).1)).filterMap id).countP
                (fun x => x.q_id == a) = 0 := by
            rw [List.countP_eq_zero]
            intro x hx
            rcases List.mem_filterMap.mp hx with ⟨ox, hox, hid⟩
            rw [id_eq] at hid
            subst hid
            have hx2 := removeInvalid_mem_some true thr _ _ rfl x hox
            have hxq : x.q_id = o.q_id := by
              rcases List.mem_cons.mp hx2 with h | h
              · injection h with h
                rw [h]
              · exact takeRun_fst_q o.q_id rest x h
            simp [hxq]
            omega
          have h2 : ((List.map (removeInvalid true thr)
              (groupRuns (takeRun o.q_id rest).2)).flatten.filterMap id).countP
                (fun x => x.q_id == a) ≤ 1 := by
            have hlen : (takeRun o.q_id rest).2.length < d := by
              have := takeRun_snd_length o.q_id rest
              simp at hd
              omega
            have hgr2 : Grouped (qSeq (takeRun o.q_id rest).2) := by
              have := grouped_drop (qSeq (some o :: rest))
                ((o.q_id :: qSeq (takeRun o.q_id rest).1).length) hg
              rwa [hqseq, List.drop_left] at this
            exact ih _ hlen _ rfl hgr2 a
          omega

/-- The per-entry error/self filter (polisher.cpp:289-293) as a map. -/
def errFilter (thr : ℚ) : Option Ov → Option Ov
  | none => none
  | some o => if o.error > thr ∨ o.q_id = o.t_id then none else some o

theorem errFilter_some (thr : ℚ) (o : Ov) :
    errFilter thr (some o) =
      if o.error > thr ∨ o.q_id = o.t_id then none else some o := rfl

theorem removeInvalid_false (thr : ℚ) :
    ∀ l : List (Option Ov), removeInvalid false thr l = l.map (errFilter thr) := by
  intro l
  induction l with
  | nil => rw [removeInvalid_nil, List.map_nil]
  | cons y rest ih =>
    rcases y with _ | o
    · rw [removeInvalid_cons_none, ih, List.map_cons]
      rfl
    · rw [removeInvalid_cons_some]
      split
      · rename_i h
        rw [ih, List.map_cons, errFilter_some, if_pos h]
      · rename_i h
        rw [if_neg (by simp), ih, List.map_cons, errFilter_some, if_neg h]

theorem normalizeChunk_false (thr : ℚ) (l : List (Option Ov)) :
    normalizeChunk false thr l = l.map (errFilter thr) := by
  unfold normalizeChunk
  have h1 : (groupRuns l).map (removeInvalid false thr) =
      (groupRuns l).map (List.map (errFilter thr)) := by
    apply List.map_congr_left
    intro r _
    exact removeInvalid_false thr r
  rw [h1, ← List.map_flatten, groupRuns_join l.length l rfl]

/-- Mode F: the normalization removes exactly the entries failing the
validity, error, and self-overlap filters — the dedup removes nothing. -/
theorem normalizeOverlaps_false (thr : ℚ) (ovs : List Ov) :
    normalizeOverlaps false thr ovs =
      ovs.filter (fun o =>
        o.valid && !(decide (o.error > thr ∨ o.q_id = o.t_id))) := by
  unfold normalizeOverlaps
  rw [normalizeChunk_false]
  induction ovs with
  | nil => rfl
  | cons o rest ih =>
    simp only [List.map_cons, List.filter_cons]
    by_cases hv : o.valid = true
    · rw [if_pos hv]
      by_cases hc : o.error > thr ∨ o.q_id = o.t_id
      · rw [errFilter_some, if_pos hc, List.filterMap_cons_none (f := id) rfl, ih]
        have h9 : (o.valid && !(decide (o.error > thr ∨ o.q_id = o.t_id))) = false := by
          simp [hv, hc]
        rw [h9]
        simp
      · rw [errFilter_some, if_neg hc, List.filterMap_cons_some (f := id) rfl, ih]
        have h9 : (o.valid && !(decide (o.error > thr ∨ o.q_id = o.t_id))) = true := by
          simp [hv, hc]
        rw [h9]
        simp
    · have hv2 : o.valid = false := by
        rcases Bool.dichotomy o.valid with h | h
        · exact h
        · exact absurd h hv
      rw [hv2]
      simp only [Bool.false_eq_true, if_false]
      rw [show errFilter thr none = none from rfl,
        List.filterMap_cons_none (f := id) rfl, ih]
      simp

/-- The pairwise survivor of the dedup duel (the longer wins; on a tie the
later one wins). -/
def pick (c o : Ov) : Ov := if c.length > o.length then c else o

theorem innerScan_all_shorter (o : Ov) :
    ∀ os : List Ov, os.dropWhile (fun x => decide (o.length > x.length)) = [] →
      innerScan o (os.map some) = (true, List.replicate os.length none) := by
  intro os
  induction os with
  | nil => intro _; rfl
  | cons y ys ih =>
    intro h
    rw [List.dropWhile_cons] at h
    by_cases hy : (decide (o.length > y.length)) = true
    · rw [if_pos hy] at h
      simp only [List.map_cons, innerScan]
      rw [if_pos (by simpa using hy), ih h]
      simp [List.replicate_succ]
    · rw [if_neg hy] at h
      exact absurd h (by simp)

theorem innerScan_first_ge (o : Ov) :
    ∀ (os ys : List Ov) (y : Ov),
      os.dropWhile (fun x => decide (o.length > x.length)) = y :: ys →
      innerScan o (os.map some) =
        (false,
          List.replicate
            (os.takeWhile (fun x => decide (o.length > x.length))).length none ++
          (some y :: ys.map some)) := by
  intro os
  induction os with
  | nil =>
    intro ys y h
    simp at h
  | cons z zs ih =>
    intro ys y h
    rw [List.dropWhile_cons] at h
    by_cases hz : (decide (o.length > z.length)) = true
    · rw [if_pos hz] at h
      simp only [List.map_cons, innerScan]
      rw [if_pos (by simpa using hz), ih ys y h, List.takeWhile_cons, if_pos hz]
      simp [List.replicate_succ]
    · rw [if_neg hz] at h
      injection h with h1 h2
      subst h1
      subst h2
      simp only [List.map_cons, innerScan]
      rw [if_neg (by simpa using hz), List.takeWhile_cons, if_neg hz]
      simp

theorem foldl_pick_all_shorter :
    ∀ (os : List Ov) (c : Ov), (∀ x ∈ os, c.length > x.length) →
      os.foldl pick c = c := by
  intro os
  induction os with
  | nil => intro c _; rfl
  | cons y ys ih =>
    intro c h
    rw [List.foldl_cons]
    have hy : pick c y = c := by
      unfold pick
      rw [if_pos (h y (List.mem_cons_self _ _))]
    rw [hy]
    exact ih c (fun x hx => h x (List.mem_cons_of_mem _ hx))

theorem dropWhile_head_false {α : Type} (p : α → Bool) :
    ∀ (l ys : List α) (y : α), l.dropWhile p = y :: ys → p y = false := by
  intro l
  induction l with
  | nil =>
    intro ys y h
    simp at h
  | cons z zs ih =>
    intro ys y h
    rw [List.dropWhile_cons] at h
    by_cases hz : p z = true
    · rw [if_pos hz] at h
      exact ih ys y h
    · rw [if_neg hz] at h
      injection h with h1 _
      subst h1
      rcases Bool.dichotomy (p z) with h2 | h2
      · exact h2
      · exact absurd h2 hz

theorem removeInvalid_replicate_pre (isC : Bool) (thr : ℚ) :
    ∀ (k : Nat) (l : List (Option Ov)),
      removeInvalid isC thr (List.replicate k none ++ l) =
        List.replicate k none ++ removeInvalid isC thr l := by
  intro k
  induction k with
  | zero => intro l; rfl
  | succ k ih =>
    intro l
    rw [List.replicate_succ, List.cons_append, removeInvalid_cons_none, ih,
      List.cons_append]

theorem filterMap_id_replicate_none :
    ∀ k : Nat, (List.replicate k (none : Option Ov)).filterMap id = [] := by
  intro k
  induction k with
  | zero => rfl
  | succ k ih =>
    rw [List.replicate_succ, List.filterMap_cons_none (f := id) rfl, ih]

/-- Within a run whose overlaps all pass the error and self filters, the
mode-C dedup keeps exactly the last overlap of maximal length. -/
theorem removeInvalid_lastmax (thr : ℚ) :
    ∀ (d : Nat) (os : List Ov) (o0 : Ov), os.length = d →
      (∀ x ∈ o0 :: os, ¬(x.error > thr) ∧ x.q_id ≠ x.t_id) →
      (removeInvalid true thr (some o0 :: os.map some)).filterMap id =
        [os.foldl pick o0] := by
  intro d
  induction d using Nat.strong_induction_on with
  | _ d ih =>
    intro os o0 hd hall
    have hp := hall o0 (List.mem_cons_self _ _)
    rw [removeInvalid_cons_some,
      if_neg (by
        rintro (h | h)
        · exact hp.1 h
        · exact hp.2 h),
      if_pos rfl]
    rcases hdw : os.dropWhile (fun x => decide (o0.length > x.length)) with _ | ⟨y, ys⟩
    · have h1 : (innerScan o0 (os.map some)).1 = true := by
        rw [innerScan_all_shorter o0 os hdw]
      have h2 : (innerScan o0 (os.map some)).2 = List.replicate os.length none := by
        rw [innerScan_all_shorter o0 os hdw]
      rw [h1, h2]
      rw [if_pos rfl,
        removeInvalid_all_none true thr _ (by
          intro x hx
          exact List.eq_of_mem_replicate hx),
        List.filterMap_cons_some (f := id) rfl, filterMap_id_replicate_none]
      rw [foldl_pick_all_shorter os o0 (by
        intro x hx
        have := List.dropWhile_eq_nil_iff.mp hdw x hx
        simpa using this)]
    · have h1 : (innerScan o0 (os.map some)).1 = false := by
        rw [innerScan_first_ge o0 os ys y hdw]
      have h2 : (innerScan o0 (os.map some)).2 =
          List.replicate
            (os.takeWhile (fun x => decide (o0.length > x.length))).length none ++
          (some y :: ys.map some) := by
        rw [innerScan_first_ge o0 os ys y hdw]
      rw [h1, h2]
      rw [if_neg (by simp), List.filterMap_cons_none (f := id) rfl,
        removeInvalid_replicate_pre, List.filterMap_append,
        filterMap_id_replicate_none, List.nil_append]
      have hsub : ∀ x ∈ y :: ys, x ∈ os := by
        intro x hx
        have hsl := List.dropWhile_sublist
          (fun x => decide (o0.length > x.length)) (l := os)
        rw [hdw] at hsl
        exact hsl.subset hx
      have hylen : ys.length < d := by
        have h1 : (y :: ys).length ≤ os.length :=
          List.Sublist.length_le (by
            have hsl := List.dropWhile_sublist
              (fun x => decide (o0.length > x.length)) (l := os)
            rwa [hdw] at hsl)
        simp only [List.length_cons] at h1
        omega
      rw [ih ys.length hylen ys y rfl (by
        intro x hx
        rcases List.mem_cons.mp hx with rfl | hx2
        · exact hall x (List.mem_cons_of_mem _ (hsub x (List.mem_cons_self _ _)))
        · exact hall x (List.mem_cons_of_mem _
            (hsub x (List.mem_cons_of_mem _ hx2))))]
      have hos : os = os.takeWhile (fun x => decide (o0.length > x.length)) ++
          (y :: ys) := by
        rw [← hdw, List.takeWhile_append_dropWhile]
      rw [show os.foldl pick o0 =
          ((os.takeWhile (fun x => decide (o0.length > x.length))) ++
            (y :: ys)).foldl pick o0 from by rw [← hos]]
      rw [List.foldl_append,
        foldl_pick_all_shorter _ o0 (by
          intro x hx
          have := List.mem_takeWhile_imp hx
          simpa using this),
        List.foldl_cons]
      have hpy : pick o0 y = y := by
        unfold pick
        have h3 := dropWhile_head_false
          (fun x => decide (o0.length > x.length)) os ys y hdw
        rw [if_neg (by simpa using h3)]
      rw [hpy]

/-- **C3.** Overlap deduplication (polisher.cpp:284-308, 310-355). What holds:
(i) in fragment mode (type F) the normalization removes exactly the entries
failing the validity, error-threshold and self-overlap filters — deduplication
removes nothing; (ii) in contig mode (type C), for grouped input every `q_id`
appears in at most one overlap after normalization; (iii) within a run whose
overlaps ALL pass the error and self filters, the pairwise duel (discard the
shorter) keeps exactly the last overlap of maximal length. The claim's
stronger reading — that the dedup keeps the single longest among the
*surviving* overlaps — fails: see the counterexample, where an overlap that
later dies to the error filter first eliminates the run's sole survivor. -/
theorem C3_dedup_normalization :
    (∀ (thr : ℚ) (ovs : List Ov),
        normalizeOverlaps false thr ovs =
          ovs.filter (fun o =>
            o.valid && !(decide (o.error > thr ∨ o.q_id = o.t_id)))) ∧
    (∀ (thr : ℚ) (ovs : List Ov),
        Grouped (qSeq (ovs.map (fun o => if o.valid then some o else none))) →
        ∀ a : Nat, (normalizeOverlaps true thr ovs).countP
          (fun o => o.q_id == a) ≤ 1) ∧
    (∀ (thr : ℚ) (o0 : Ov) (os : List Ov),
        (∀ x ∈ o0 :: os, ¬(x.error > thr) ∧ x.q_id ≠ x.t_id) →
        (removeInvalid true thr (some o0 :: os.map some)).filterMap id =
          [os.foldl pick o0]) := by
  refine ⟨normalizeOverlaps_false, ?_, ?_⟩
  · intro thr ovs hg a
    unfold normalizeOverlaps
    exact normalizeChunk_count thr _ _ rfl hg a
  · intro thr o0 os hall
    exact removeInvalid_lastmax thr os.length os o0 rfl hall

/-- **C3 counterexample.** Run of two same-`q_id` overlaps: A with length 5
and error 0, then B with length 10 and error 1, threshold 1/2. A is the only
overlap surviving the error filter (mode F keeps exactly [A]), yet in mode C
the dedup duel kills A against the longer not-yet-filtered B, and B then dies
to the error filter: the normalization output is empty, not [A] as "keep the
single longest surviving overlap" predicts. -/
theorem C3_dedup_normalization_cex :
    normalizeOverlaps false (1/2)
      [⟨0, 1, 0, 5, true, true⟩, ⟨0, 1, 1, 10, true, true⟩] =
      [⟨0, 1, 0, 5, true, true⟩] ∧
    normalizeOverlaps true (1/2)
      [⟨0, 1, 0, 5, true, true⟩, ⟨0, 1, 1, 10, true, true⟩] = [] := by
  constructor
  · rw [normalizeOverlaps_false]
    norm_num [List.filter_cons]
  · unfold normalizeOverlaps
    norm_num [normalizeChunk, groupRuns_cons_some, groupRuns_nil, takeRun,
      removeInvalid_cons_some, removeInvalid_nil, innerScan]

theorem C3_dedup_normalization_witness :
    (∀ x ∈ ([⟨0, 1, 0, 5, true, true⟩, ⟨0, 1, 0, 3, true, true⟩,
        ⟨0, 1, 0, 7, true, true⟩] : List Ov),
      ¬(x.error > (1 : ℚ)/2) ∧ x.q_id ≠ x.t_id) ∧
    (removeInvalid true ((1 : ℚ)/2)
        (some ⟨0, 1, 0, 5, true, true⟩ ::
          ([⟨0, 1, 0, 3, true, true⟩, ⟨0, 1, 0, 7, true, true⟩] :
            List Ov).map some)).filterMap id =
      [⟨0, 1, 0, 7, true, true⟩] := by
  have hall : ∀ x ∈ ([⟨0, 1, 0, 5, true, true⟩, ⟨0, 1, 0, 3, true, true⟩,
      ⟨0, 1, 0, 7, true, true⟩] : List Ov),
      ¬(x.error > (1 : ℚ)/2) ∧ x.q_id ≠ x.t_id := by
    intro x hx
    simp only [List.mem_cons, List.not_mem_nil, or_false] at hx
    rcases hx with rfl | rfl | rfl <;> norm_num
  refine ⟨hall, ?_⟩
  rw [C3_dedup_normalization.2.2 ((1 : ℚ)/2) ⟨0, 1, 0, 5, true, true⟩
    [⟨0, 1, 0, 3, true, true⟩, ⟨0, 1, 0, 7, true, true⟩] hall]
  rfl

/-- The fatal-check skeleton of `Polisher::initialize` (polisher.cpp:192-364):
empty target set is fatal before query loading (lines 205-210); query loading
can be fatal on a duplicate with unequal data (lines 237-252); an empty query
set is fatal after loading (lines 266-270); an empty overlap set after
filtering is fatal (lines 360-364); otherwise initialization proceeds with
the loaded queries, the id redirection, and the normalized overlaps. -/
def initializePolisher (targets queries : List Seq) (ovs : List Ov)
    (isC : Bool) (thr : ℚ) :
    Except (List Char) (List Seq × List Nat × List Ov) :=
  if targets.length = 0 then
    Except.error "empty target sequences set!".toList
  else
    (loadQueries targets targets.length 0 queries).bind
      (fun r =>
        if queries.length = 0 then
          Except.error "empty sequences set!".toList
        else if (normalizeOverlaps isC thr ovs).length = 0 then
          Except.error "empty overlap set!".toList
        else Except.ok (r.1, r.2, normalizeOverlaps isC thr ovs))

/-- **C8.** If the target set is empty, the query set is empty, or the
overlap set is empty after filtering, initialization ends in an error
(the run exits nonzero with a diagnostic) — never in a successful result. -/
theorem C8_fatal_empty_inputs (targets queries : List Seq) (ovs : List Ov)
    (isC : Bool) (thr : ℚ) :
    (targets = [] ∨ queries = [] ∨ normalizeOverlaps isC thr ovs = []) →
    ∃ e, initializePolisher targets queries ovs isC thr = Except.error e := by
  intro h
  unfold initializePolisher
  rcases h with h | h | h
  · subst h
    exact ⟨_, rfl⟩
  · by_cases ht : targets.length = 0
    · rw [if_pos ht]
      exact ⟨_, rfl⟩
    · rw [if_neg ht]
      subst h
      exact ⟨_, rfl⟩
  · by_cases ht : targets.length = 0
    · rw [if_pos ht]
      exact ⟨_, rfl⟩
    · rw [if_neg ht]
      rcases hlq : loadQueries targets targets.length 0 queries with e | r
      · exact ⟨e, rfl⟩
      · by_cases hq : queries.length = 0
        · refine ⟨"empty sequences set!".toList, ?_⟩
          simp only [Except.bind]
          rw [if_pos hq]
        · refine ⟨"empty overlap set!".toList, ?_⟩
          simp only [Except.bind]
          rw [if_neg hq, h]
          rfl

theorem C8_fatal_empty_inputs_witness :
    (([] : List Seq) = [] ∨ ([] : List Seq) = [] ∨
      normalizeOverlaps true 0 [] = []) ∧
    ∃ e, initializePolisher [] [] [] true 0 = Except.error e :=
  ⟨Or.inl rfl, C8_fatal_empty_inputs [] [] [] true 0 (Or.inl rfl)⟩

end Racon
